import Mathlib

/-!
# Verification of a persistent Hash Array Mapped Trie (HAMT)

This file is a shallow embedding, in Lean 4, of a JavaScript HAMT
implementation (`hamt.ffi.mjs`): an immutable dictionary whose interior
nodes route lookups by consecutive 5-bit fragments of a 32-bit key hash.

Embedding conventions, chosen once and used throughout:

* JavaScript numbers reaching the trie kernel are 32-bit integers (every
  hash is produced under `| 0`, `Math.imul` or `^`).  The kernel consumes
  hashes only through `>>>`, `&`, `|`, `===`, which depend on the unsigned
  32-bit view alone, so node hashes are embedded as natural numbers below
  2^32.  JavaScript shift counts are taken mod 32, hence the `% 32` in
  `hashFragment` and `toMask`.
* Key equality (`isEqual`, Gleam structural equality) is embedded as
  decidable equality on an abstract key type `K`; the key hash function
  (`getHash`) is an abstract `hashK : K → Nat`.  The hashing layer itself
  is embedded separately at the end of this file.
* The mutation callback of `alter` closes over a mutable size counter in
  the source; it is embedded in state-passing style with an explicit
  state type `σ`.
* Run-time type errors of the dynamically typed source are embedded as
  `Except Unit`, `.error ()` standing for a thrown `TypeError`.  One such
  error is actually reachable: every pair stored in a collision node is
  built by `mergeLeaves` / `alterCollisionNode` as a `{key, value}`
  object, but `alterCollisionNode` and `find` read pairs with the array
  destructuring `let [k, v] = node.pairs[i]`, which throws `TypeError:
  not iterable` on a plain object.  Consequently in the source any scan
  of a nonempty collision node throws, and the embedding returns
  `.error ()` there.  Out-of-bounds child reads (`children[i]` yielding
  `undefined` whose `.type` is then dereferenced) are likewise embedded
  as `.error ()`; they are unreachable on well-formed trees.
-/

set_option linter.unusedSectionVars false

namespace Hamt

/-! ## Bit operations -/

/-- Size in bits of one hash fragment (`FRAGMENT_SIZE` in the source). -/
def FRAGMENT_SIZE : Nat := 5

/-- Number of children of a full interior node (`BUCKET_SIZE = 2^FRAGMENT_SIZE`). -/
def BUCKET_SIZE : Nat := 2 ^ FRAGMENT_SIZE

/-- Mask of `FRAGMENT_SIZE` one bits (`MASK = BUCKET_SIZE - 1`). -/
def MASK : Nat := BUCKET_SIZE - 1

/-- Threshold at which a packed node is promoted to an array node. -/
def MAX_CHILDREN_IN_PACKED_NODE : Nat := BUCKET_SIZE / 2

/-- Threshold below which an array node could be demoted (unused: the demotion
is an acknowledged TODO in the source). -/
def MIN_CHILDREN_IN_ARRAY_NODE : Nat := BUCKET_SIZE / 4

/-- Population count on 32-bit words, by the folded-shift (SWAR) method,
copied bit-for-bit from the source.  The source applies it to nonnegative
32-bit integers (`bitmap & (mask - 1)` with `mask = 1 << f`, `f ≤ 31`, is
always below 2^31), on which JavaScript `>>` agrees with the unsigned
shift used here. -/
def popCount (bitmap : Nat) : Nat :=
  let b1 := bitmap - ((bitmap >>> 1) &&& 0x55555555)
  let b2 := (b1 &&& 0x33333333) + ((b1 >>> 2) &&& 0x33333333)
  let b3 := (b2 + (b2 >>> 4)) &&& 0x0f0f0f0f
  let b4 := b3 + (b3 >>> 8)
  let b5 := b4 + (b4 >>> 16)
  b5 &&& 0x7f

/-- `hashFragment shift hash = (hash >>> shift) & MASK`; JavaScript takes
shift counts mod 32. -/
def hashFragment (shift hash : Nat) : Nat :=
  (hash >>> (shift % 32)) &&& MASK

/-- `toMask fragment = 1 << fragment` (shift count taken mod 32 as in JS). -/
def toMask (fragment : Nat) : Nat :=
  1 <<< (fragment % 32)

/-! ## The node type

`EMPTY_NODE` is `null` in the source; leaf nodes are plain
`{hash, key, value}` records; the other variants carry a type tag.
Collision pairs are embedded as `K × V` (the `{key, value}` objects the
source creates; see the header note on how the source *reads* them).
Array-node slots are `Option` values, `none` standing for `undefined`. -/

inductive Node (K V : Type) where
  | empty
  | leaf (hash : Nat) (key : K) (value : V)
  | collision (hash : Nat) (pairs : List (K × V))
  | packed (bitmap : Nat) (children : List (Node K V))
  | array (size : Nat) (children : List (Option (Node K V)))

variable {K V σ : Type} [DecidableEq K] [DecidableEq V]

/-! JavaScript `===` on nodes is reference equality; a new node is never
`===` to a previously existing one unless it is the very same object, and
the source only ever compares a node with a candidate replacement built
from it.  Structural equality, embedded below as a Boolean function (the
nested inductive does not support derived decidable equality), coincides
with it on every observation the algorithms make. -/

mutual

def nodeEq : Node K V → Node K V → Bool
  | .empty, .empty => true
  | .leaf h k v, .leaf h' k' v' => h = h' && k = k' && v = v'
  | .collision h ps, .collision h' ps' => h = h' && ps = ps'
  | .packed bm cs, .packed bm' cs' => bm = bm' && nodeListEq cs cs'
  | .array n cs, .array n' cs' => n = n' && nodeOptListEq cs cs'
  | _, _ => false

def nodeListEq : List (Node K V) → List (Node K V) → Bool
  | [], [] => true
  | c :: cs, c' :: cs' => nodeEq c c' && nodeListEq cs cs'
  | _, _ => false

def nodeOptListEq : List (Option (Node K V)) → List (Option (Node K V)) → Bool
  | [], [] => true
  | none :: cs, none :: cs' => nodeOptListEq cs cs'
  | some c :: cs, some c' :: cs' => nodeEq c c' && nodeOptListEq cs cs'
  | _, _ => false

end

/-! ## Merging two terminal nodes (`mergeLeaves`, `mergeLeavesLoop`)

`mergeLeavesLoop` recurses while the two hashes agree on the current
fragment; the recursion is embedded with explicit fuel, `none` meaning
the fuel ran out.  `mergeLeaves` supplies fuel 32; it is proved below
that fuel 7 already suffices from shift 0 whenever the two hashes differ
(they always do at the one call site of the loop). -/

def mergeLeavesLoop (fuel : Nat) (shift hash : Nat) (node : Node K V)
    (otherHash : Nat) (otherNode : Node K V) : Option (Node K V) :=
  match fuel with
  | 0 => none
  | fuel + 1 =>
    let fragment := hashFragment shift hash
    let otherFragment := hashFragment shift otherHash
    let bitmap := toMask fragment ||| toMask otherFragment
    if fragment = otherFragment then
      (mergeLeavesLoop fuel (shift + FRAGMENT_SIZE) hash node otherHash otherNode).map
        (fun child => .packed bitmap [child])
    else if fragment < otherFragment then
      some (.packed bitmap [node, otherNode])
    else
      some (.packed bitmap [otherNode, node])

/-- `mergeLeaves` combines two terminal nodes (a leaf or a collision node
each; the two call sites always pass a fresh leaf as `other`).  Shapes
outside the contract would make the source fabricate pairs with
`undefined` fields; they are mapped to an empty collision node and are
unreachable from the call sites. -/
def mergeLeaves (shift hash : Nat) (node : Node K V) (otherHash : Nat)
    (other : Node K V) : Node K V :=
  if hash = otherHash then
    match node, other with
    | .collision _ ps, .collision _ ps' => .collision hash (ps ++ ps')
    | .leaf _ k v, .collision _ ps' => .collision hash (ps' ++ [(k, v)])
    | .collision _ ps, .leaf _ k' v' => .collision hash (ps ++ [(k', v')])
    | .leaf _ k v, .leaf _ k' v' => .collision hash [(k', v'), (k, v)]
    | _, _ => .collision hash []
  else
    (mergeLeavesLoop 32 shift hash node otherHash other).getD .empty

/-- `node === EMPTY_NODE` on a node value. -/
def isEmptyNode : Node K V → Bool
  | .empty => true
  | _ => false

/-! ## The `alter` kernel

`alter shift node key keyHash f s` is the single write primitive.  The
decision callback `f` receives `none` (`NO_VALUE`) or `some v` (the
present value) together with the current state, and answers with `none`
(`REMOVE`) or `some v'` (`INSERT v'`) and the new state.  The branches
named `alterLeafNode`, `alterCollisionNode`, `alterPackedNode` and
`alterArrayNode` in the source are the corresponding match arms here;
the recursion into the selected child goes through the mutual helpers
`alterListNth` / `alterOptListNth`, whose out-of-range cases reproduce
the `TypeError` the source would throw dereferencing `undefined`. -/

mutual

def alter (shift : Nat) (node : Node K V) (key : K) (keyHash : Nat)
    (f : Option V → σ → Option V × σ) (s : σ) : Except Unit (Node K V × σ) :=
  match node with
  | .empty =>
    let r := f none s
    .ok (match r.1 with
         | none => .empty
         | some v => .leaf keyHash key v, r.2)
  | .leaf h k v =>
    -- alterLeafNode
    if key = k then
      let r := f (some v) s
      .ok (match r.1 with
           | none => .empty
           | some v' => .leaf h k v', r.2)
    else
      let r := f none s
      .ok (match r.1 with
           | none => .leaf h k v
           | some v' => mergeLeaves shift h (.leaf h k v) keyHash (.leaf keyHash key v'), r.2)
  | .collision h ps =>
    -- alterCollisionNode
    if keyHash ≠ h then
      let r := f none s
      .ok (match r.1 with
           | none => .collision h ps
           | some v' => mergeLeaves shift h (.collision h ps) keyHash (.leaf keyHash key v'), r.2)
    else
      match ps with
      | [] =>
        -- An empty pair list is never scanned, so `value` stays `NO_VALUE`.
        let r := f none s
        .ok (match r.1 with
             | none => .collision h ps
             | some v' => mergeLeaves shift h (.collision h ps) keyHash (.leaf keyHash key v'), r.2)
      | _ :: _ =>
        -- The source scans with `let [k, v] = node.pairs[i]`, an array
        -- destructuring of the `{key, value}` objects the pairs actually
        -- are: the first iteration throws a TypeError.
        .error ()
  | .packed bitmap children =>
    -- alterPackedNode
    let fragment := hashFragment shift keyHash
    let mask := toMask fragment
    let childIndex := popCount (bitmap &&& (mask - 1))
    if bitmap &&& mask ≠ 0 then
      let child := children.getD childIndex .empty
      match alterListNth children childIndex (shift + FRAGMENT_SIZE) key keyHash f s with
      | .error e => .error e
      | .ok (newChild, s') =>
        .ok (if isEmptyNode newChild then
               if bitmap = mask then .empty
               else .packed (bitmap ^^^ mask) (children.eraseIdx childIndex)
             else
               if nodeEq newChild child then .packed bitmap children
               else .packed bitmap (children.set childIndex newChild), s')
    else
      let r := f none s
      match r.1 with
      | none => .ok (.packed bitmap children, r.2)
      | some v' =>
        if MAX_CHILDREN_IN_PACKED_NODE ≤ children.length then
          .ok (.array (children.length + 1)
                 (promoteLoop children 32 0 bitmap
                   (List.replicate 32 (Option.none) |>.set fragment (some (.leaf keyHash key v')))), r.2)
        else
          .ok (.packed (bitmap ||| mask)
                 (List.insertIdx childIndex (.leaf keyHash key v') children), r.2)
  | .array n children =>
    -- alterArrayNode
    let childIndex := hashFragment shift keyHash
    match children.getD childIndex none with
    | none =>
      let r := f none s
      .ok (match r.1 with
           | none => .array n children
           | some v' => .array (n + 1) (children.set childIndex (some (.leaf keyHash key v'))), r.2)
    | some child =>
      match alterOptListNth children childIndex (shift + FRAGMENT_SIZE) key keyHash f s with
      | .error e => .error e
      | .ok (newChild, s') =>
        .ok (if nodeEq newChild child then .array n children
             else if isEmptyNode newChild then
               if n = 1 then .empty
               else .array n (children.set childIndex none)
             else .array n (children.set childIndex newChild), s')

def alterListNth (cs : List (Node K V)) (i : Nat) (shift : Nat) (key : K)
    (keyHash : Nat) (f : Option V → σ → Option V × σ) (s : σ) :
    Except Unit (Node K V × σ) :=
  match cs, i with
  | [], _ => .error ()
  | c :: _, 0 => alter shift c key keyHash f s
  | _ :: cs, i + 1 => alterListNth cs i shift key keyHash f s

def alterOptListNth (cs : List (Option (Node K V))) (i : Nat) (shift : Nat) (key : K)
    (keyHash : Nat) (f : Option V → σ → Option V × σ) (s : σ) :
    Except Unit (Node K V × σ) :=
  match cs, i with
  | [], _ => .error ()
  | none :: _, 0 => .error ()
  | some c :: _, 0 => alter shift c key keyHash f s
  | _ :: cs, i + 1 => alterOptListNth cs i shift key keyHash f s

/-- Loop body of the packed-to-array promotion: for each index `i`, if bit
`i` of the bitmap is set, move the next packed child into slot `i`.
`remaining` counts the iterations left (the source iterates `i` from 0 to
31); `j` is the running index into the packed children, an out-of-range
read placing `undefined` (that is, `none`) in the slot, as in JS. -/
def promoteLoop (cs : List (Node K V)) : Nat → Nat → Nat →
    List (Option (Node K V)) → List (Option (Node K V))
  | 0, _, _, slots => slots
  | remaining + 1, j, bitmap, slots =>
    let i := 32 - (remaining + 1)
    if bitmap &&& 1 ≠ 0 then
      promoteLoop cs remaining (j + 1) (bitmap >>> 1) (slots.set i cs[j]?)
    else
      promoteLoop cs remaining j (bitmap >>> 1) slots

end

/-! ## Lookup (`find`)

The iterative descent of the source is embedded as structural recursion;
moving `shift` forward and continuing the `while` loop at a child node is
exactly a tail call.  The checks the loop performs on a child before
continuing (`undefined`/`EMPTY_NODE` → not found, leaf → compare keys)
give the same answer as recursing into the child, because the recursion
performs those very checks first. -/

mutual

def find (shift : Nat) (node : Node K V) (key : K) (keyHash : Nat) :
    Except Unit (Option V) :=
  match node with
  | .empty => .ok none
  | .array _ children =>
    findOptListNth children (hashFragment shift keyHash) (shift + FRAGMENT_SIZE) key keyHash
  | .packed bitmap children =>
    let mask := 1 <<< (hashFragment shift keyHash % 32)
    if bitmap &&& mask = 0 then
      .ok none
    else
      findListNth children (popCount (bitmap &&& (mask - 1))) (shift + FRAGMENT_SIZE) key keyHash
  | .collision h ps =>
    if keyHash ≠ h then
      .ok none
    else
      match ps with
      | [] => .ok none
      | _ :: _ =>
        -- `const [conflictingKey, value] = node.pairs[i]` destructures a
        -- `{key, value}` object: TypeError on the first iteration.
        .error ()
  | .leaf _ k v =>
    .ok (if key = k then some v else none)

def findListNth (cs : List (Node K V)) (i : Nat) (shift : Nat) (key : K)
    (keyHash : Nat) : Except Unit (Option V) :=
  match cs, i with
  | [], _ => .error ()
  | c :: _, 0 => find shift c key keyHash
  | _ :: cs, i + 1 => findListNth cs i shift key keyHash

def findOptListNth (cs : List (Option (Node K V))) (i : Nat) (shift : Nat) (key : K)
    (keyHash : Nat) : Except Unit (Option V) :=
  match cs, i with
  | [], _ => .ok none
  | none :: _, 0 => .ok none
  | some c :: _, 0 => find shift c key keyHash
  | _ :: cs, i + 1 => findOptListNth cs i shift key keyHash

end

/-! ## The public dictionary API -/

/-- The map record `{root, size}`.  The size is a JavaScript number the
source only ever increments and decrements; it is embedded as `Int`. -/
structure Dict (K V : Type) where
  root : Node K V
  size : Int

variable (hashK : K → Nat)

/-- `empty()` -/
def emptyDict : Dict K V := ⟨.empty, 0⟩

/-- `size(dict)` -/
def dictSize (dict : Dict K V) : Int := dict.size

/-- `set(dict, key, value)`: insert or overwrite.  The callback always
answers `INSERT value` and increments the captured counter exactly when
called with `NO_VALUE`. -/
def set (dict : Dict K V) (key : K) (value : V) : Except Unit (Dict K V) :=
  (alter 0 dict.root key (hashK key)
      (fun arg s => (some value, if arg = none then s + 1 else s)) dict.size).map
    (fun r => ⟨r.1, r.2⟩)

/-- `remove(dict, key)`: the callback always answers `REMOVE` and
decrements the captured counter exactly when called with a present value. -/
def remove (dict : Dict K V) (key : K) : Except Unit (Dict K V) :=
  (alter 0 dict.root key (hashK key)
      (fun arg s => (none, if arg ≠ none then s - 1 else s)) dict.size).map
    (fun r => ⟨r.1, r.2⟩)

/-- `get(dict, key)`: `some` is Gleam's `Ok(value)`, `none` is `Error(Nil)`. -/
def get (dict : Dict K V) (key : K) : Except Unit (Option V) :=
  (find 0 dict.root key (hashK key)).map (fun r => r)

/-- `hasKey(dict, key) = find(dict.root, key) !== NOT_FOUND`. -/
def hasKey (dict : Dict K V) (key : K) : Except Unit Bool :=
  (find 0 dict.root key (hashK key)).map (fun r => r.isSome)

/-- An insert or a remove, for stating facts about arbitrary operation
sequences. -/
inductive Op (K V : Type) where
  | ins (key : K) (value : V)
  | del (key : K)

/-- Run a sequence of operations starting from the empty dictionary. -/
def applyOps (ops : List (Op K V)) : Except Unit (Dict K V) :=
  ops.foldlM
    (fun d op =>
      match op with
      | .ins k v => set hashK d k v
      | .del k => remove hashK d k) emptyDict

/-! ## The hashing layer

JavaScript `| 0` (`ToInt32`) is `toInt32`; `Math.imul` is `imul`; `^` on
32-bit integers is `ixor`; the arithmetic (sign-propagating) right shift
`>>` is `sar`; `<<` is `shl32`.  Hash-layer values are `Int`s in signed
32-bit range, except where the source itself fails to truncate (the
`hashCode` override). -/

/-- `ToInt32`: reduce an integer to the signed 32-bit value it denotes
(`%` on `Int` is the nonnegative Euclidean remainder). -/
def toInt32 (n : Int) : Int := (n + 2 ^ 31) % 2 ^ 32 - 2 ^ 31

/-- `Math.imul`. -/
def imul (a b : Int) : Int := toInt32 (a * b)

/-- The unsigned 32-bit view of an integer. -/
def toUnsigned32 (a : Int) : Nat := (a % 2 ^ 32).toNat

/-- Bitwise `^` of two 32-bit integers (operands pass through `ToInt32`). -/
def ixor (a b : Int) : Int := toInt32 ((toUnsigned32 a ^^^ toUnsigned32 b : Nat) : Int)

/-- Signed (arithmetic) right shift `a >> k` of a 32-bit integer: floor
division by `2^k`. -/
def sar (a : Int) (k : Nat) : Int := Int.fdiv a (2 ^ k)

/-- `a << k` on a 32-bit integer. -/
def shl32 (a : Int) (k : Nat) : Int := toInt32 (a * 2 ^ k)

/-- `hashMerge(one, other) = (one ^ (other + 0x9e3779b9 + (one << 6) + (one >> 2))) | 0`.
The inner sum is exact double arithmetic; the `^` truncates it to 32 bits. -/
def hashMerge (one other : Int) : Int :=
  ixor one (other + 0x9e3779b9 + shl32 one 6 + sar one 2)

/-- `hashString`: the Java-style 31-multiplier fold over the UTF-16 code
units of the string (`charCodeAt`).  A JavaScript string is exactly its
sequence of UTF-16 code units, embedded as `List Nat`. -/
def hashString (units : List Nat) : Int :=
  units.foldl (fun h c => toInt32 (imul 31 h + (c : Int))) 0

/-- IEEE-754 double bits of a natural number below `2^53` (the encoding
performed by `DataView.setFloat64` on an exactly representable integer);
used to embed numeric literals, whose bit pattern `hashNumber` consumes. -/
def float64Bits (n : Nat) : Nat :=
  if n = 0 then 0
  else (1023 + Nat.log2 n) <<< 52 + (n - 2 ^ Nat.log2 n) <<< (52 - Nat.log2 n)

/-- `hashNumber`: reinterpret the double as two int32 halves `i` (high)
and `j` (low) and return `Math.imul(0x45d9f3b, (i >> 16) ^ i) ^ j`. -/
def hashNumber (bits : Nat) : Int :=
  let i := toInt32 ((bits >>> 32 : Nat) : Int)
  let j := toInt32 ((bits % 2 ^ 32 : Nat) : Int)
  ixor (imul 0x45d9f3b (ixor (sar i 16) i)) j

/-- Code units of the decimal representation of an integer, modelling
`BigInt.prototype.toString`. -/
def decimalUnits (n : Int) : List Nat :=
  let digits := (Nat.toDigits 10 n.natAbs).map Char.toNat
  if n < 0 then 45 :: digits else digits

/-- `hashBigInt`: hash the decimal string form. -/
def hashBigInt (n : Int) : Int := hashString (decimalUnits n)

/-! ### The admissible JavaScript values and `getHash`

A model of the JavaScript values the hash layer is defined on.  Numbers
(and epoch milliseconds of dates) are carried as their 64 IEEE-754 bits.
Opaque reference-hashed values (promises, weak collections, symbols,
callables) carry the identifier the process-wide weak table assigns them;
the table's counter wraps at `0x7fffffff`, so assigned identifiers are
always below `0x7fffffff`.  Every object carries the behaviour of its
`hashCode` capability: absent, throwing, returning the number `n`
(integral numbers suffice for the claims), or returning a non-number. -/

inductive HashCodeCap where
  | missing
  | raises
  | retNumber (n : Int)
  | retOther

mutual

inductive JSValue where
  | null
  | undef
  | bool (b : Bool)
  | num (bits : Nat)
  | str (units : List Nat)
  | bigint (n : Int)
  | symbolOrFn (id : Nat)
  | obj (hc : HashCodeCap) (o : JSObject)

inductive JSObject where
  | refObj (id : Nat)
  | date (bits : Nat)
  | buffer (bytes : List Nat)
  | arr (elems : List JSValue)
  | jsSet (elems : List JSValue)
  | jsMap (pairs : List (JSValue × JSValue))
  | record (fields : List (List Nat × JSValue))

end

/-- Reading a `Uint8Array` element yields a number; its hash is
`hashNumber` of that number's bit pattern.  Byte buffers fold exactly as
arrays do, with `getHash(element)` inlined to this. -/
def hashByteList : List Nat → Int → Int
  | [], h => h
  | b :: rest, h => hashByteList rest (toInt32 (imul 31 h + hashNumber (float64Bits b)))

/-! `getHash` / `hashObject`, translated case for case.  `hashObject`
first consults the `hashCode` capability: a returned number is passed
through verbatim (no truncation), a raised failure or a non-number answer
falls through to the default.  The default dispatches: reference-hashed
objects (`Promise`, `WeakSet`, `WeakMap`), dates, byte buffers
(`ArrayBuffer` is viewed as a `Uint8Array`, whose elements are numbers),
arrays, sets, maps, and finally plain records. -/

mutual

def getHash : JSValue → Int
  | .null => 0x42108422
  | .undef => 0x42108423
  | .bool true => 0x42108421
  | .bool false => 0x42108420
  | .num bits => hashNumber bits
  | .str units => hashString units
  | .bigint n => hashBigInt n
  | .symbolOrFn id => (id : Int)
  | .obj hc o =>
    match hc with
    | .retNumber n => n
    | _ => hashObjectDefault o

def hashObjectDefault : JSObject → Int
  | .refObj id => (id : Int)
  | .date bits => hashNumber bits
  | .buffer bytes => hashByteList bytes 0
  | .arr elems => hashArrElems elems 0
  | .jsSet elems => hashSetElems elems 0
  | .jsMap pairs => hashMapPairs pairs 0
  | .record fields => hashRecordFields fields 0

def hashArrElems : List JSValue → Int → Int
  | [], h => h
  | v :: rest, h => hashArrElems rest (toInt32 (imul 31 h + getHash v))

def hashSetElems : List JSValue → Int → Int
  | [], h => h
  | v :: rest, h => hashSetElems rest (toInt32 (h + getHash v))

def hashMapPairs : List (JSValue × JSValue) → Int → Int
  | [], h => h
  | (k, v) :: rest, h => hashMapPairs rest (toInt32 (h + hashMerge (getHash v) (getHash k)))

def hashRecordFields : List (List Nat × JSValue) → Int → Int
  | [], h => h
  | (name, v) :: rest, h =>
    hashRecordFields rest (toInt32 (h + hashMerge (getHash v) (hashString name)))

end

/-- A signed 32-bit integer value. -/
def isInt32 (n : Int) : Prop := -2 ^ 31 ≤ n ∧ n < 2 ^ 31

instance (n : Int) : Decidable (isInt32 n) := by
  unfold isInt32
  exact inferInstance

/-- Admissibility of a value for the int32 statement of hash totality:
every `hashCode` capability in the value returns a 32-bit integer if it
returns a number at all, and every reference-table identifier respects
the table's `0x7fffffff` bound. -/

def goodCap : HashCodeCap → Bool
  | .retNumber n => decide (isInt32 n)
  | _ => true

mutual

def goodValue : JSValue → Bool
  | .symbolOrFn id => decide (id < 0x7fffffff)
  | .obj hc o => goodCap hc && goodObject o
  | _ => true

def goodObject : JSObject → Bool
  | .refObj id => decide (id < 0x7fffffff)
  | .arr elems => goodValueList elems
  | .jsSet elems => goodValueList elems
  | .jsMap pairs => goodPairList pairs
  | .record fields => goodFieldList fields
  | _ => true

def goodValueList : List JSValue → Bool
  | [] => true
  | v :: rest => goodValue v && goodValueList rest

def goodPairList : List (JSValue × JSValue) → Bool
  | [] => true
  | (k, v) :: rest => goodValue k && goodValue v && goodPairList rest

def goodFieldList : List (List Nat × JSValue) → Bool
  | [] => true
  | (_, v) :: rest => goodValue v && goodFieldList rest

end

/-! ### Spec-side definitions for the string-hash claim

`utf16Encode` turns a sequence of Unicode code points into the UTF-16
code-unit sequence of the JavaScript string denoting it (code points at
or above `0x10000` become surrogate pairs). `hashStringCodepoints`
follows the specification's words: the 31-multiplier fold
`h = (31·h + c) | 0` iterated over the code points, for comparison
against what the source computes. -/

def utf16Encode : List Nat → List Nat
  | [] => []
  | c :: cs =>
    if c < 0x10000 then c :: utf16Encode cs
    else (0xD800 + (c - 0x10000) / 0x400) :: (0xDC00 + (c - 0x10000) % 0x400) :: utf16Encode cs

def hashStringCodepoints (codepoints : List Nat) : Int :=
  codepoints.foldl (fun h c => toInt32 (31 * h + (c : Int))) 0

/-- The unsigned 32-bit view of the string hash: the hash function handed
to the trie kernel when keys are strings (the kernel consumes hashes
through `>>>` and `&`, which read this view). -/
def hashKU (units : List Nat) : Nat := toUnsigned32 (hashString units)

/-! ## Well-formedness of trees

`wfNode` collects the structural invariants every tree reachable through
the public API satisfies: a packed node's bitmap is a nonzero 32-bit word
whose population count equals its number of children, interior nodes
never store the empty node as a child, array nodes have exactly 32 slots,
and collision nodes hold at least two pairs. -/

mutual

def wfNode : Node K V → Bool
  | .empty => true
  | .leaf _ _ _ => true
  | .collision _ ps => decide (2 ≤ ps.length)
  | .packed bm cs =>
    decide (bm < 2 ^ 32) && decide (bm ≠ 0) && decide (popCount bm = cs.length) && wfNodeList cs
  | .array _ cs => decide (cs.length = 32) && wfNodeOptList cs

def wfNodeList : List (Node K V) → Bool
  | [] => true
  | c :: cs => !isEmptyNode c && wfNode c && wfNodeList cs

def wfNodeOptList : List (Option (Node K V)) → Bool
  | [] => true
  | none :: cs => wfNodeOptList cs
  | some c :: cs => !isEmptyNode c && wfNode c && wfNodeOptList cs

end

/-! ## Observers used to state the structural claims -/

mutual

/-- All keys stored in a tree (leaf keys and collision-pair keys). -/
def keysOf : Node K V → List K
  | .empty => []
  | .leaf _ k _ => [k]
  | .collision _ ps => ps.map Prod.fst
  | .packed _ cs => keysOfList cs
  | .array _ cs => keysOfOptList cs

def keysOfList : List (Node K V) → List K
  | [] => []
  | c :: cs => keysOf c ++ keysOfList cs

def keysOfOptList : List (Option (Node K V)) → List K
  | [] => []
  | none :: cs => keysOfOptList cs
  | some c :: cs => keysOf c ++ keysOfOptList cs

end

mutual

/-- Whether the tree contains a packed node with exactly one child. -/
def hasUnaryPacked : Node K V → Bool
  | .packed _ cs => decide (cs.length = 1) || hasUnaryPackedList cs
  | .array _ cs => hasUnaryPackedOptList cs
  | _ => false

def hasUnaryPackedList : List (Node K V) → Bool
  | [] => false
  | c :: cs => hasUnaryPacked c || hasUnaryPackedList cs

def hasUnaryPackedOptList : List (Option (Node K V)) → Bool
  | [] => false
  | none :: cs => hasUnaryPackedOptList cs
  | some c :: cs => hasUnaryPacked c || hasUnaryPackedOptList cs

end

mutual

/-- Every packed node in the tree has at least one child. -/
def packedNonempty : Node K V → Bool
  | .empty => true
  | .leaf _ _ _ => true
  | .collision _ _ => true
  | .packed _ cs => decide (1 ≤ cs.length) && packedNonemptyList cs
  | .array _ cs => packedNonemptyOptList cs

def packedNonemptyList : List (Node K V) → Bool
  | [] => true
  | c :: cs => packedNonempty c && packedNonemptyList cs

def packedNonemptyOptList : List (Option (Node K V)) → Bool
  | [] => true
  | none :: cs => packedNonemptyOptList cs
  | some c :: cs => packedNonempty c && packedNonemptyOptList cs

end

/-! ## Arithmetic scaffolding for the population-count proofs

`digitsSum b m d` is the number with base-`b` digits `d 0, …, d (m-1)`;
`bitCnt m x` counts the set bits among the low `m` bits of `x`.  The SWAR
`popCount` is proved equal to `bitCnt 32` on 32-bit words below. -/

def digitsSum (b m : Nat) (d : Nat → Nat) : Nat :=
  ∑ i ∈ Finset.range m, d i * b ^ i

def bitCnt (m x : Nat) : Nat :=
  ∑ i ∈ Finset.range m, x / 2 ^ i % 2

/-! # Theorems -/

/-! ## The SWAR popCount: correctness and consequences -/

/-! ### Generic facts about base-`b` digit sums -/

theorem digitsSum_zero (b : Nat) (d : Nat → Nat) : digitsSum b 0 d = 0 := by
  simp [digitsSum]

theorem digitsSum_succ (b m : Nat) (d : Nat → Nat) :
    digitsSum b (m + 1) d = digitsSum b m d + d m * b ^ m := by
  simp [digitsSum, Finset.sum_range_succ]

theorem digitsSum_peel (b m : Nat) (d : Nat → Nat) :
    digitsSum b (m + 1) d = d 0 + b * digitsSum b m (fun i => d (i + 1)) := by
  unfold digitsSum
  rw [Finset.sum_range_succ']
  rw [Finset.mul_sum]
  simp only [pow_zero, mul_one, pow_succ]
  rw [Nat.add_comm]
  congr 1
  refine Finset.sum_congr rfl (fun i _ => ?_)
  ring

theorem digitsSum_congr {m : Nat} (b : Nat) {d e : Nat → Nat} (h : ∀ i < m, d i = e i) :
    digitsSum b m d = digitsSum b m e :=
  Finset.sum_congr rfl (fun i hi => by rw [h i (Finset.mem_range.1 hi)])

theorem digitsSum_lt {b m : Nat} {d : Nat → Nat} (hb : 1 ≤ b) (h : ∀ i < m, d i < b) :
    digitsSum b m d < b ^ m := by
  induction m with
  | zero => simpa [digitsSum] using hb
  | succ m ih =>
    have h1 := ih (fun i hi => h i (by omega))
    have h2 := h m (by omega)
    rw [digitsSum_succ, pow_succ]
    have h3 : d m * b ^ m ≤ (b - 1) * b ^ m := Nat.mul_le_mul_right _ (by omega)
    have hbpos : 0 < b ^ m := Nat.pos_pow_of_pos m (by omega)
    have h4 : b ^ m + (b - 1) * b ^ m = b ^ m * b := by
      have hb1 : 1 + (b - 1) = b := by omega
      calc b ^ m + (b - 1) * b ^ m = (1 + (b - 1)) * b ^ m := by ring
      _ = b * b ^ m := by rw [hb1]
      _ = b ^ m * b := by ring
    omega

theorem digitsSum_reconstruct {b : Nat} (hb : 0 < b) :
    ∀ (m : Nat) (x : Nat), x < b ^ m → digitsSum b m (fun i => x / b ^ i % b) = x := by
  intro m
  induction m with
  | zero =>
    intro x hx
    have hx0 : x = 0 := by simpa using hx
    subst hx0
    simp [digitsSum]
  | succ m ih =>
    intro x hx
    rw [digitsSum_peel]
    have hx2 : x / b < b ^ m := by
      rw [Nat.div_lt_iff_lt_mul hb]
      calc x < b ^ (m + 1) := hx
      _ = b ^ m * b := by rw [pow_succ]
    have := ih (x / b) hx2
    have heq : digitsSum b m (fun i => x / b ^ (i + 1) % b) =
        digitsSum b m (fun i => x / b / b ^ i % b) := by
      refine digitsSum_congr b (fun i _ => ?_)
      rw [Nat.div_div_eq_div_mul, pow_succ, Nat.mul_comm b (b ^ i)]
    simp only [pow_zero, Nat.div_one]
    rw [heq, this, Nat.mod_add_div]

theorem digitsSum_div_base {b m : Nat} {d : Nat → Nat} (hb : 0 < b) (hd : ∀ i < m + 1, d i < b) :
    digitsSum b (m + 1) d / b = digitsSum b m (fun i => d (i + 1)) := by
  rw [digitsSum_peel, Nat.add_mul_div_left _ _ hb, Nat.div_eq_of_lt (hd 0 (by omega))]
  omega

theorem digitsSum_mod_base {b m : Nat} {d : Nat → Nat} (hd : d 0 < b) :
    digitsSum b (m + 1) d % b = d 0 := by
  rw [digitsSum_peel, Nat.add_mul_mod_self_left, Nat.mod_eq_of_lt hd]

theorem digitsSum_div_pow {b : Nat} (hb : 0 < b) :
    ∀ (q m : Nat) (d : Nat → Nat), (∀ i < m, d i < b) → q ≤ m →
      digitsSum b m d / b ^ q = digitsSum b (m - q) (fun i => d (i + q)) := by
  intro q
  induction q with
  | zero => intro m d _ _; simp
  | succ q ihq =>
    intro m d hd hq
    match m, hq with
    | m + 1, hq =>
      have h1 : digitsSum b (m + 1) d / b ^ (q + 1) = digitsSum b (m + 1) d / b / b ^ q := by
        rw [Nat.div_div_eq_div_mul, pow_succ, Nat.mul_comm (b ^ q) b]
      rw [h1, digitsSum_div_base hb hd,
        ihq m (fun i => d (i + 1)) (fun i hi => hd (i + 1) (by omega)) (by omega)]
      have hm : m - q = m + 1 - (q + 1) := by omega
      rw [hm]
      exact digitsSum_congr b (fun i _ => rfl)

theorem digitsSum_extract {b m : Nat} {d : Nat → Nat} (hb : 0 < b) (hd : ∀ i < m, d i < b)
    {q : Nat} (hq : q < m) : digitsSum b m d / b ^ q % b = d q := by
  rw [digitsSum_div_pow hb q m d hd (by omega)]
  match h : m - q with
  | 0 => omega
  | t + 1 =>
    have hq0 : (fun i => d (i + q)) 0 < b := by
      show d (0 + q) < b
      rw [Nat.zero_add]
      exact hd q hq
    have := digitsSum_mod_base (b := b) (m := t) (d := fun i => d (i + q)) hq0
    simpa using this

theorem digitsSum_add (b m : Nat) (d e : Nat → Nat) :
    digitsSum b m d + digitsSum b m e = digitsSum b m (fun i => d i + e i) := by
  unfold digitsSum
  rw [← Finset.sum_add_distrib]
  refine Finset.sum_congr rfl (fun i _ => ?_)
  ring

theorem digitsSum_sub {b m : Nat} {d e : Nat → Nat} (h : ∀ i < m, e i ≤ d i) :
    digitsSum b m d - digitsSum b m e = digitsSum b m (fun i => d i - e i) := by
  have key : digitsSum b m (fun i => d i - e i) + digitsSum b m e = digitsSum b m d := by
    rw [digitsSum_add]
    exact digitsSum_congr b (fun i hi => by have := h i hi; omega)
  omega

theorem digitsSum_pad (b m t : Nat) (d : Nat → Nat) :
    digitsSum b m d = digitsSum b (m + t) (fun i => if i < m then d i else 0) := by
  induction t with
  | zero => exact digitsSum_congr b (fun i hi => by rw [if_pos hi])
  | succ t ih => rw [ih, ← Nat.add_assoc, digitsSum_succ, if_neg (by omega)]; omega

theorem sum_pair (m : Nat) (f : Nat → Nat) :
    ∑ i ∈ Finset.range (2 * m), f i = ∑ j ∈ Finset.range m, (f (2 * j) + f (2 * j + 1)) := by
  induction m with
  | zero => simp
  | succ m ih =>
    have h1 : 2 * (m + 1) = 2 * m + 1 + 1 := by omega
    rw [h1, Finset.sum_range_succ, Finset.sum_range_succ, ih, Finset.sum_range_succ]
    omega

theorem digitsSum_regroup (b m : Nat) (d : Nat → Nat) :
    digitsSum b (2 * m) d = digitsSum (b ^ 2) m (fun j => d (2 * j) + b * d (2 * j + 1)) := by
  unfold digitsSum
  rw [sum_pair]
  refine Finset.sum_congr rfl (fun j _ => ?_)
  have h1 : (b ^ 2) ^ j = b ^ (2 * j) := by rw [← pow_mul]
  have h2 : b ^ (2 * j + 1) = b * b ^ (2 * j) := by rw [pow_succ]; ring
  rw [h1, h2]
  ring

/-! ### Bitwise AND against a repeating low-bits mask, arithmetically -/

theorem and_split {k : Nat} {a c : Nat} (ha : a < 2 ^ k) (hc : c < 2 ^ k) (x y : Nat) :
    (a + 2 ^ k * x) &&& (c + 2 ^ k * y) = (a &&& c) + 2 ^ k * (x &&& y) := by
  refine Nat.eq_of_testBit_eq (fun j => ?_)
  rw [Nat.testBit_and, Nat.add_comm a, Nat.add_comm c, Nat.add_comm (a &&& c)]
  rw [Nat.testBit_mul_pow_two_add _ ha j, Nat.testBit_mul_pow_two_add _ hc j,
    Nat.testBit_mul_pow_two_add _ (Nat.and_lt_two_pow a hc) j]
  by_cases hj : j < k
  · simp [hj, Nat.testBit_and]
  · simp [hj, Nat.testBit_and]

theorem and_repeating_mask {k t : Nat} (ht : t ≤ k) :
    ∀ (m : Nat) (y : Nat), y < (2 ^ k) ^ m →
      y &&& digitsSum (2 ^ k) m (fun _ => 2 ^ t - 1) =
        digitsSum (2 ^ k) m (fun i => y / (2 ^ k) ^ i % 2 ^ k % 2 ^ t) := by
  intro m
  induction m with
  | zero =>
    intro y hy
    have hy0 : y = 0 := by simpa using hy
    subst hy0
    simp [digitsSum]
  | succ m ih =>
    intro y hy
    have hk : 0 < (2 : Nat) ^ k := Nat.pos_pow_of_pos _ (by omega)
    have hsplit : y = y % 2 ^ k + 2 ^ k * (y / 2 ^ k) := (Nat.mod_add_div _ _).symm
    have hmask : digitsSum (2 ^ k) (m + 1) (fun _ => 2 ^ t - 1) =
        (2 ^ t - 1) + 2 ^ k * digitsSum (2 ^ k) m (fun _ => 2 ^ t - 1) := digitsSum_peel _ _ _
    have hylt : y / 2 ^ k < (2 ^ k) ^ m := by
      rw [Nat.div_lt_iff_lt_mul hk]
      calc y < (2 ^ k) ^ (m + 1) := hy
      _ = (2 ^ k) ^ m * 2 ^ k := by rw [pow_succ]
    have htlt : (2 : Nat) ^ t - 1 < 2 ^ k := by
      have h1 : (2 : Nat) ^ t ≤ 2 ^ k := Nat.pow_le_pow_right (by omega) ht
      have h2 : 0 < (2 : Nat) ^ t := Nat.pos_pow_of_pos _ (by omega)
      omega
    conv_lhs => rw [hsplit, hmask]
    rw [and_split (Nat.mod_lt _ hk) htlt, ih _ hylt]
    rw [digitsSum_peel]
    congr 1
    · rw [Nat.and_pow_two_sub_one_eq_mod]
      simp
    · congr 1
      refine digitsSum_congr _ (fun i _ => ?_)
      rw [Nat.div_div_eq_div_mul]
      congr 2
      rw [pow_succ]
      ring

/-! ### The SWAR popCount computes the bit count -/

theorem div_pow_two_mul (x a b : Nat) : x / 2 ^ a / 2 ^ b = x / 2 ^ (a + b) := by
  rw [Nat.div_div_eq_div_mul, ← pow_add]

/-- Bitwise AND against the mask whose base-`2^k` digits are all `2^t - 1`
keeps the low `t` bits of every `k`-bit field. -/
theorem and_mask_digits {k t m : Nat} (ht : t ≤ k) {y : Nat} (hy : y < 2 ^ (k * m)) :
    y &&& digitsSum (2 ^ k) m (fun _ => 2 ^ t - 1) =
      digitsSum (2 ^ k) m (fun i => y / 2 ^ (k * i) % 2 ^ k % 2 ^ t) := by
  have hy2 : y < (2 ^ k) ^ m := by rw [← Nat.pow_mul]; exact hy
  rw [and_repeating_mask ht m y hy2]
  refine digitsSum_congr _ (fun i _ => ?_)
  rw [← Nat.pow_mul]

/-- Digit `q` (base `2^k`) of a number below `2^(k*m)`. -/
theorem digit_of_digitsSum {k m : Nat} {d : Nat → Nat} (hd : ∀ i < m, d i < 2 ^ k)
    {q : Nat} (hq : q < m) :
    digitsSum (2 ^ k) m d / 2 ^ (k * q) % 2 ^ k = d q := by
  have := digitsSum_extract (b := 2 ^ k) (Nat.pos_pow_of_pos _ (by omega)) hd hq
  rw [← Nat.pow_mul] at this
  exact this

/-- Second SWAR step: pairs of 2-bit counts combine into 4-bit counts. -/
theorem swar_step2 (d1 : Nat → Nat) (hd1 : ∀ i < 16, d1 i ≤ 2) :
    (digitsSum (2 ^ 2) 16 d1 &&& 0x33333333) +
      ((digitsSum (2 ^ 2) 16 d1 >>> 2) &&& 0x33333333) =
      digitsSum (2 ^ 4) 8 (fun j => d1 (2 * j) + d1 (2 * j + 1)) := by
  have hd1lt : ∀ i < 16, d1 i < 2 ^ 2 := fun i hi => by have := hd1 i hi; omega
  have hb1 : digitsSum (2 ^ 2) 16 d1 < 2 ^ (4 * 8) := by
    have := digitsSum_lt (by omega) hd1lt
    norm_num at this ⊢
    omega
  have hregroup : digitsSum (2 ^ 2) 16 d1 =
      digitsSum (2 ^ 4) 8 (fun j => d1 (2 * j) + 2 ^ 2 * d1 (2 * j + 1)) := by
    have h1 := digitsSum_regroup (2 ^ 2) 8 d1
    norm_num at h1 ⊢
    exact h1
  have hdig : ∀ j < 8, d1 (2 * j) + 2 ^ 2 * d1 (2 * j + 1) < 2 ^ 4 := by
    intro j hj
    have l1 := hd1 (2 * j) (by omega)
    have l2 := hd1 (2 * j + 1) (by omega)
    omega
  have hmask : (0x33333333 : Nat) = digitsSum (2 ^ 4) 8 (fun _ => 2 ^ 2 - 1) := by decide
  have hL : digitsSum (2 ^ 2) 16 d1 &&& 0x33333333 =
      digitsSum (2 ^ 4) 8 (fun j => d1 (2 * j)) := by
    rw [hmask, and_mask_digits (by omega) hb1]
    refine digitsSum_congr _ (fun j hj => ?_)
    conv_lhs => rw [hregroup]
    rw [digit_of_digitsSum hdig hj]
    have := hd1 (2 * j) (by omega)
    omega
  have hR : (digitsSum (2 ^ 2) 16 d1 >>> 2) &&& 0x33333333 =
      digitsSum (2 ^ 4) 8 (fun j => d1 (2 * j + 1)) := by
    have hlt : digitsSum (2 ^ 2) 16 d1 >>> 2 < 2 ^ (4 * 8) := by
      rw [Nat.shiftRight_eq_div_pow]
      have := Nat.div_le_self (digitsSum (2 ^ 2) 16 d1) (2 ^ 2)
      omega
    rw [hmask, and_mask_digits (by omega) hlt]
    refine digitsSum_congr _ (fun j hj => ?_)
    rw [Nat.shiftRight_eq_div_pow, div_pow_two_mul, Nat.mod_mod_of_dvd _ (by norm_num)]
    have he : 2 + 4 * j = 2 * (2 * j + 1) := by omega
    rw [he]
    exact digit_of_digitsSum hd1lt (by omega)
  rw [hL, hR, digitsSum_add]

/-- Third SWAR step: adjacent 4-bit counts combine into byte counts. -/
theorem swar_step3 (d2 : Nat → Nat) (hd2 : ∀ j < 8, d2 j ≤ 4) :
    (digitsSum (2 ^ 4) 8 d2 + (digitsSum (2 ^ 4) 8 d2 >>> 4)) &&& 0x0f0f0f0f =
      digitsSum (2 ^ 8) 4 (fun r => d2 (2 * r) + d2 (2 * r + 1)) := by
  have hd2lt : ∀ j < 8, d2 j < 2 ^ 4 := fun j hj => by have := hd2 j hj; omega
  have hshift : digitsSum (2 ^ 4) 8 d2 >>> 4 =
      digitsSum (2 ^ 4) 8 (fun j => if j < 7 then d2 (j + 1) else 0) := by
    rw [Nat.shiftRight_eq_div_pow]
    have h1 : (2 : Nat) ^ 4 = (2 ^ 4) ^ 1 := by norm_num
    have h2 := digitsSum_div_base (b := 2 ^ 4) (m := 7) (d := d2) (by omega) hd2lt
    calc digitsSum (2 ^ 4) 8 d2 / 2 ^ 4 = digitsSum (2 ^ 4) 7 (fun j => d2 (j + 1)) := h2
    _ = _ := digitsSum_pad _ 7 1 _
  have hu : ∀ j < 8, d2 j + (if j < 7 then d2 (j + 1) else 0) < 2 ^ 4 := by
    intro j hj
    have l1 := hd2 j hj
    by_cases h7 : j < 7
    · have l2 := hd2 (j + 1) (by omega)
      simp [h7]
      omega
    · simp [h7]
      omega
  have hsum : digitsSum (2 ^ 4) 8 d2 + digitsSum (2 ^ 4) 8 d2 >>> 4 =
      digitsSum (2 ^ 4) 8 (fun j => d2 j + (if j < 7 then d2 (j + 1) else 0)) := by
    rw [hshift, digitsSum_add]
  rw [hsum]
  have hslt : digitsSum (2 ^ 4) 8 (fun j => d2 j + (if j < 7 then d2 (j + 1) else 0)) <
      2 ^ (8 * 4) := by
    have := digitsSum_lt (b := 2 ^ 4) (by omega) hu
    norm_num at this ⊢
    omega
  have hmask : (0x0f0f0f0f : Nat) = digitsSum (2 ^ 8) 4 (fun _ => 2 ^ 4 - 1) := by decide
  rw [hmask, and_mask_digits (by omega) hslt]
  have hregroup : digitsSum (2 ^ 4) 8 (fun j => d2 j + (if j < 7 then d2 (j + 1) else 0)) =
      digitsSum (2 ^ 8) 4 (fun r =>
        (fun j => d2 j + (if j < 7 then d2 (j + 1) else 0)) (2 * r) +
          2 ^ 4 * (fun j => d2 j + (if j < 7 then d2 (j + 1) else 0)) (2 * r + 1)) := by
    have h1 := digitsSum_regroup (2 ^ 4) 4 (fun j => d2 j + (if j < 7 then d2 (j + 1) else 0))
    norm_num at h1 ⊢
    convert h1 using 2
  have hdig : ∀ r < 4, (fun j => d2 j + (if j < 7 then d2 (j + 1) else 0)) (2 * r) +
      2 ^ 4 * (fun j => d2 j + (if j < 7 then d2 (j + 1) else 0)) (2 * r + 1) < 2 ^ 8 := by
    intro r hr
    have l1 := hu (2 * r) (by omega)
    have l2 := hu (2 * r + 1) (by omega)
    simp only at l1 l2 ⊢
    omega
  refine digitsSum_congr _ (fun r hr => ?_)
  conv_lhs => rw [hregroup]
  rw [digit_of_digitsSum hdig hr]
  have l1 := hu (2 * r) (by omega)
  simp only at l1 ⊢
  have h7 : 2 * r < 7 := by omega
  rw [if_pos h7]
  rw [if_pos h7] at l1
  omega

/-- The low seven bits of a byte-digit number whose first digit is small. -/
theorem digitsSum_mod_small {d : Nat → Nat} {m : Nat} (h : d 0 < 2 ^ 7) :
    digitsSum (2 ^ 8) (m + 1) d % 2 ^ 7 = d 0 := by
  rw [digitsSum_peel]
  have hb : (2 : Nat) ^ 8 = 2 ^ 7 * 2 := by norm_num
  rw [hb, Nat.mul_assoc, Nat.add_mul_mod_self_left, Nat.mod_eq_of_lt h]

/-- Last SWAR steps: fold the four byte counts and mask to 7 bits. -/
theorem swar_step456 (d3 : Nat → Nat) (hd3 : ∀ r < 4, d3 r ≤ 8) :
    ((digitsSum (2 ^ 8) 4 d3 + (digitsSum (2 ^ 8) 4 d3 >>> 8)) +
      ((digitsSum (2 ^ 8) 4 d3 + (digitsSum (2 ^ 8) 4 d3 >>> 8)) >>> 16)) &&& 0x7f =
      d3 0 + d3 1 + d3 2 + d3 3 := by
  have hd3lt : ∀ r < 4, d3 r < 2 ^ 8 := fun r hr => by have := hd3 r hr; omega
  have hshift8 : digitsSum (2 ^ 8) 4 d3 >>> 8 =
      digitsSum (2 ^ 8) 4 (fun r => if r < 3 then d3 (r + 1) else 0) := by
    rw [Nat.shiftRight_eq_div_pow]
    have h2 := digitsSum_div_base (b := 2 ^ 8) (m := 3) (d := d3) (by omega) hd3lt
    calc digitsSum (2 ^ 8) 4 d3 / 2 ^ 8 = digitsSum (2 ^ 8) 3 (fun r => d3 (r + 1)) := h2
    _ = _ := digitsSum_pad _ 3 1 _
  have hd4 : ∀ r < 4, d3 r + (if r < 3 then d3 (r + 1) else 0) < 2 ^ 8 := by
    intro r hr
    have l1 := hd3 r hr
    by_cases h3 : r < 3
    · have l2 := hd3 (r + 1) (by omega)
      simp [h3]
      omega
    · simp [h3]
      omega
  have hb4 : digitsSum (2 ^ 8) 4 d3 + digitsSum (2 ^ 8) 4 d3 >>> 8 =
      digitsSum (2 ^ 8) 4 (fun r => d3 r + (if r < 3 then d3 (r + 1) else 0)) := by
    rw [hshift8, digitsSum_add]
  rw [hb4]
  have hshift16 : digitsSum (2 ^ 8) 4 (fun r => d3 r + (if r < 3 then d3 (r + 1) else 0)) >>> 16 =
      digitsSum (2 ^ 8) 4 (fun r =>
        if r < 2 then (fun t => d3 t + (if t < 3 then d3 (t + 1) else 0)) (r + 2) else 0) := by
    rw [Nat.shiftRight_eq_div_pow]
    have he : (2 : Nat) ^ 16 = (2 ^ 8) ^ 2 := by norm_num
    rw [he]
    have h2 := digitsSum_div_pow (b := 2 ^ 8) (by omega) 2 4
      (fun r => d3 r + (if r < 3 then d3 (r + 1) else 0)) hd4 (by omega)
    rw [h2]
    calc digitsSum (2 ^ 8) 2 (fun i => (fun r => d3 r + (if r < 3 then d3 (r + 1) else 0)) (i + 2))
        = digitsSum (2 ^ 8) (2 + 2) (fun i =>
            if i < 2 then (fun r => d3 r + (if r < 3 then d3 (r + 1) else 0)) (i + 2) else 0) :=
          digitsSum_pad _ 2 2 _
    _ = _ := by norm_num
  rw [hshift16, digitsSum_add]
  have hmask : (0x7f : Nat) = 2 ^ 7 - 1 := by norm_num
  rw [hmask, Nat.and_pow_two_sub_one_eq_mod]
  show digitsSum (2 ^ 8) (3 + 1) _ % 2 ^ 7 = _
  rw [digitsSum_mod_small (by
    have b0 := hd3 0 (by omega)
    have b1 := hd3 1 (by omega)
    have b2 := hd3 2 (by omega)
    have b3 := hd3 3 (by omega)
    norm_num
    omega)]
  norm_num
  omega

theorem popCount_eq_bitCnt {x : Nat} (hx : x < 2 ^ 32) : popCount x = bitCnt 32 x := by
  -- the 2-bit field sums: d1 i = bit (2i) + bit (2i+1)
  have hblt : ∀ j, x / 2 ^ j % 2 < 2 := fun j => Nat.mod_lt _ (by omega)
  -- Step A: (x >>> 1) & 0x55555555
  have hA : (x >>> 1) &&& 0x55555555 = digitsSum (2 ^ 2) 16 (fun i => x / 2 ^ (2 * i + 1) % 2) := by
    have hlt : x >>> 1 < 2 ^ (2 * 16) := by
      rw [Nat.shiftRight_eq_div_pow]
      have := Nat.div_le_self x (2 ^ 1)
      omega
    have hmask : (0x55555555 : Nat) = digitsSum (2 ^ 2) 16 (fun _ => 2 ^ 1 - 1) := by decide
    rw [hmask, and_mask_digits (by omega) hlt]
    refine digitsSum_congr _ (fun i _ => ?_)
    rw [Nat.shiftRight_eq_div_pow, div_pow_two_mul, Nat.mod_mod_of_dvd _ (by norm_num)]
    have he : 1 + 2 * i = 2 * i + 1 := by omega
    rw [he, pow_one]
  -- Step B: x as 2-bit fields
  have hB : x = digitsSum (2 ^ 2) 16
      (fun i => x / 2 ^ (2 * i) % 2 + 2 * (x / 2 ^ (2 * i + 1) % 2)) := by
    have h4x : x < (2 ^ 2) ^ 16 := by norm_num; omega
    have hrec := digitsSum_reconstruct (b := 2 ^ 2) (by omega) 16 x h4x
    calc x = digitsSum (2 ^ 2) 16 (fun i => x / (2 ^ 2) ^ i % 2 ^ 2) := hrec.symm
    _ = _ := by
      refine digitsSum_congr _ (fun i _ => ?_)
      have h1 : (2 ^ 2 : Nat) ^ i = 2 ^ (2 * i) := by rw [← Nat.pow_mul]
      have h3 : x / 2 ^ (2 * i) / 2 = x / 2 ^ (2 * i + 1) := by
        have := div_pow_two_mul x (2 * i) 1
        simpa using this
      rw [h1]
      show x / 2 ^ (2 * i) % 4 = _
      rw [← h3]
      omega
  -- Step C: b1 = x - masked, in 2-bit fields
  have hC : x - ((x >>> 1) &&& 0x55555555) =
      digitsSum (2 ^ 2) 16 (fun i => x / 2 ^ (2 * i) % 2 + x / 2 ^ (2 * i + 1) % 2) := by
    rw [hA]
    nth_rewrite 1 [hB]
    rw [digitsSum_sub (fun i _ => by have := hblt (2 * i + 1); omega)]
    exact digitsSum_congr _ (fun i _ => by omega)
  -- name the digit functions so the step lemmas chain syntactically
  obtain ⟨D1, hD1⟩ : ∃ D1 : Nat → Nat,
      (fun i => x / 2 ^ (2 * i) % 2 + x / 2 ^ (2 * i + 1) % 2) = D1 := ⟨_, rfl⟩
  have hD1b : ∀ i < 16, D1 i ≤ 2 := by
    intro i _
    rw [← hD1]
    simp only
    have l1 := hblt (2 * i)
    have l2 := hblt (2 * i + 1)
    omega
  rw [hD1] at hC
  obtain ⟨D2, hD2⟩ : ∃ D2 : Nat → Nat, (fun j => D1 (2 * j) + D1 (2 * j + 1)) = D2 := ⟨_, rfl⟩
  have hD2b : ∀ j < 8, D2 j ≤ 4 := by
    intro j hj
    rw [← hD2]
    simp only
    have l1 := hD1b (2 * j) (by omega)
    have l2 := hD1b (2 * j + 1) (by omega)
    omega
  have e2 := swar_step2 D1 hD1b
  rw [hD2] at e2
  obtain ⟨D3, hD3⟩ : ∃ D3 : Nat → Nat, (fun r => D2 (2 * r) + D2 (2 * r + 1)) = D3 := ⟨_, rfl⟩
  have hD3b : ∀ r < 4, D3 r ≤ 8 := by
    intro r hr
    rw [← hD3]
    simp only
    have l1 := hD2b (2 * r) (by omega)
    have l2 := hD2b (2 * r + 1) (by omega)
    omega
  have e3 := swar_step3 D2 hD2b
  rw [hD3] at e3
  have e456 := swar_step456 D3 hD3b
  have hsum : bitCnt 32 x = D3 0 + D3 1 + D3 2 + D3 3 := by
    unfold bitCnt
    rw [show (32 : Nat) = 2 * 16 by norm_num, sum_pair]
    have p1 : ∀ i ∈ Finset.range 16, x / 2 ^ (2 * i) % 2 + x / 2 ^ (2 * i + 1) % 2 = D1 i :=
      fun i _ => congrFun hD1 i
    rw [Finset.sum_congr rfl p1, show (16 : Nat) = 2 * 8 by norm_num, sum_pair]
    have p2 : ∀ j ∈ Finset.range 8, D1 (2 * j) + D1 (2 * j + 1) = D2 j :=
      fun j _ => congrFun hD2 j
    rw [Finset.sum_congr rfl p2, show (8 : Nat) = 2 * 4 by norm_num, sum_pair]
    have p3 : ∀ r ∈ Finset.range 4, D2 (2 * r) + D2 (2 * r + 1) = D3 r :=
      fun r _ => congrFun hD3 r
    rw [Finset.sum_congr rfl p3]
    rw [Finset.sum_range_succ, Finset.sum_range_succ, Finset.sum_range_succ,
      Finset.sum_range_succ, Finset.sum_range_zero]
    omega
  rw [hsum]
  simp only [popCount]
  rw [hC, e2, e3, e456]


/-! ### Consequences for the population count of 32-bit words -/

theorem bitCnt_eq_sum_testBit (m x : Nat) :
    bitCnt m x = ∑ i ∈ Finset.range m, (x.testBit i).toNat := by
  unfold bitCnt
  exact Finset.sum_congr rfl (fun i _ => (Nat.toNat_testBit x i).symm)

theorem two_pow_lt_two_pow_32 {f : Nat} (hf : f < 32) : 2 ^ f < 2 ^ 32 :=
  Nat.pow_lt_pow_right (by omega) hf

theorem popCount_and_mask_le {x f : Nat} (hx : x < 2 ^ 32) :
    popCount (x &&& (2 ^ f - 1)) ≤ popCount x := by
  have h1 : x &&& (2 ^ f - 1) ≤ x := Nat.and_le_left
  rw [popCount_eq_bitCnt (by omega), popCount_eq_bitCnt hx,
    bitCnt_eq_sum_testBit, bitCnt_eq_sum_testBit]
  refine Finset.sum_le_sum (fun i _ => ?_)
  rw [Nat.testBit_and]
  cases hxi : x.testBit i <;> simp [hxi, Bool.toNat_le]

theorem popCount_and_mask_lt {x f : Nat} (hx : x < 2 ^ 32) (hf : f < 32)
    (hbit : x.testBit f = true) : popCount (x &&& (2 ^ f - 1)) < popCount x := by
  have h1 : x &&& (2 ^ f - 1) ≤ x := Nat.and_le_left
  rw [popCount_eq_bitCnt (by omega), popCount_eq_bitCnt hx,
    bitCnt_eq_sum_testBit, bitCnt_eq_sum_testBit]
  refine Finset.sum_lt_sum (fun i _ => ?_) ⟨f, Finset.mem_range.2 hf, ?_⟩
  · rw [Nat.testBit_and]
    cases hxi : x.testBit i <;> simp [hxi, Bool.toNat_le]
  · rw [Nat.testBit_and, hbit, Nat.testBit_two_pow_sub_one]
    simp

theorem popCount_or_two_pow {x f : Nat} (hx : x < 2 ^ 32) (hf : f < 32)
    (hbit : x.testBit f = false) : popCount (x ||| 2 ^ f) = popCount x + 1 := by
  have hor : x ||| 2 ^ f < 2 ^ 32 := Nat.or_lt_two_pow hx (two_pow_lt_two_pow_32 hf)
  rw [popCount_eq_bitCnt hor, popCount_eq_bitCnt hx,
    bitCnt_eq_sum_testBit, bitCnt_eq_sum_testBit]
  have hfm : f ∈ Finset.range 32 := Finset.mem_range.2 hf
  rw [← Finset.sum_erase_add _ _ hfm, ← Finset.sum_erase_add _ (fun i => (x.testBit i).toNat) hfm]
  have hcongr : ∀ i ∈ (Finset.range 32).erase f,
      ((x ||| 2 ^ f).testBit i).toNat = (x.testBit i).toNat := by
    intro i hi
    have hne : f ≠ i := fun h => (Finset.mem_erase.1 hi).1 h.symm
    rw [Nat.testBit_or, Nat.testBit_two_pow_of_ne hne]
    simp
  rw [Finset.sum_congr rfl hcongr, Nat.testBit_or, hbit, Nat.testBit_two_pow_self]
  simp

theorem popCount_xor_two_pow {x f : Nat} (hx : x < 2 ^ 32) (hf : f < 32)
    (hbit : x.testBit f = true) : popCount (x ^^^ 2 ^ f) + 1 = popCount x := by
  have hxor : x ^^^ 2 ^ f < 2 ^ 32 := Nat.xor_lt_two_pow hx (two_pow_lt_two_pow_32 hf)
  rw [popCount_eq_bitCnt hxor, popCount_eq_bitCnt hx,
    bitCnt_eq_sum_testBit, bitCnt_eq_sum_testBit]
  have hfm : f ∈ Finset.range 32 := Finset.mem_range.2 hf
  rw [← Finset.sum_erase_add _ _ hfm, ← Finset.sum_erase_add _ (fun i => (x.testBit i).toNat) hfm]
  have hcongr : ∀ i ∈ (Finset.range 32).erase f,
      ((x ^^^ 2 ^ f).testBit i).toNat = (x.testBit i).toNat := by
    intro i hi
    have hne : f ≠ i := fun h => (Finset.mem_erase.1 hi).1 h.symm
    rw [Nat.testBit_xor, Nat.testBit_two_pow_of_ne hne]
    simp
  rw [Finset.sum_congr rfl hcongr, Nat.testBit_xor, hbit, Nat.testBit_two_pow_self]
  simp

theorem popCount_two_pow {f : Nat} (hf : f < 32) : popCount (2 ^ f) = 1 := by
  rw [popCount_eq_bitCnt (two_pow_lt_two_pow_32 hf), bitCnt_eq_sum_testBit]
  have : ∀ i ∈ Finset.range 32, ((2 ^ f : Nat).testBit i).toNat = if f = i then 1 else 0 := by
    intro i _
    rw [Nat.testBit_two_pow]
    by_cases h : f = i <;> simp [h]
  rw [Finset.sum_congr rfl this, Finset.sum_ite_eq]
  simp [Finset.mem_range.2 hf]

theorem popCount_two_pow_or {a b : Nat} (ha : a < 32) (hb : b < 32) (hne : a ≠ b) :
    popCount (2 ^ a ||| 2 ^ b) = 2 := by
  have hor : (2 ^ a ||| 2 ^ b : Nat) < 2 ^ 32 :=
    Nat.or_lt_two_pow (two_pow_lt_two_pow_32 ha) (two_pow_lt_two_pow_32 hb)
  rw [popCount_eq_bitCnt hor, bitCnt_eq_sum_testBit]
  have hterm : ∀ i ∈ Finset.range 32, ((2 ^ a ||| 2 ^ b : Nat).testBit i).toNat =
      (if a = i then 1 else 0) + (if b = i then 1 else 0) := by
    intro i _
    rw [Nat.testBit_or, Nat.testBit_two_pow, Nat.testBit_two_pow]
    by_cases h1 : a = i
    · have h2 : ¬ b = i := fun h => hne (h1.trans h.symm)
      simp [h1, h2]
    · by_cases h2 : b = i <;> simp [h1, h2]
  rw [Finset.sum_congr rfl hterm, Finset.sum_add_distrib, Finset.sum_ite_eq, Finset.sum_ite_eq]
  simp [Finset.mem_range.2 ha, Finset.mem_range.2 hb]

theorem popCount_pos {x : Nat} (hx : x < 2 ^ 32) (hne : x ≠ 0) : 1 ≤ popCount x := by
  obtain ⟨i, hi⟩ := Nat.ne_zero_implies_bit_true hne
  have hilt : i < 32 := by
    by_contra hge
    have : x < 2 ^ i := lt_of_lt_of_le hx (Nat.pow_le_pow_right (by omega) (by omega))
    rw [Nat.testBit_lt_two_pow this] at hi
    exact Bool.noConfusion hi
  rw [popCount_eq_bitCnt hx, bitCnt_eq_sum_testBit]
  have : ((x.testBit i).toNat : Nat) ≤ ∑ j ∈ Finset.range 32, (x.testBit j).toNat :=
    Finset.single_le_sum (f := fun j => (x.testBit j).toNat)
      (fun j _ => Nat.zero_le _) (Finset.mem_range.2 hilt)
  rw [hi] at this
  exact this

/-! ### Fragments and masks -/

theorem hashFragment_lt (shift hash : Nat) : hashFragment shift hash < 32 := by
  unfold hashFragment MASK BUCKET_SIZE FRAGMENT_SIZE
  have : (hash >>> (shift % 32)) &&& 31 = (hash >>> (shift % 32)) % 32 := by
    have h31 : (31 : Nat) = 2 ^ 5 - 1 := by norm_num
    rw [h31, Nat.and_pow_two_sub_one_eq_mod]
  norm_num at this ⊢
  rw [this]
  exact Nat.mod_lt _ (by omega)

theorem toMask_eq_two_pow {f : Nat} (hf : f < 32) : toMask f = 2 ^ f := by
  unfold toMask
  rw [Nat.mod_eq_of_lt hf, Nat.one_shiftLeft]

theorem and_two_pow_ne_iff {x f : Nat} :
    x &&& 2 ^ f ≠ 0 ↔ x.testBit f = true := by
  rw [Nat.and_two_pow]
  cases h : x.testBit f <;> simp [h]


/-! ## `hasKey` agrees with `get` (C9) -/

/-- C9: for every map `m` and key `k`, the exported `hasKey(m, k)` returns
`true` exactly when `get(m, k)` returns `Ok(v)` for some `v` (both are
computed from the same `find` call; in particular they throw together on
the collision-node inputs on which `find` throws). -/
theorem hasKey_iff_get_ok (d : Dict K V) (k : K) :
    hasKey hashK d k = .ok true ↔ ∃ v, get hashK d k = .ok (some v) := by
  unfold hasKey get
  cases find 0 d.root k (hashK k) with
  | error e => simp [Except.map]
  | ok r =>
    cases r with
    | none => simp [Except.map]
    | some v => simp [Except.map]

/-! ## Evaluations of the trie kernel at concrete inputs (C1, C2, C3, C4, C7)

The concrete keys are JavaScript strings given by their UTF-16 code
units, hashed by the embedded `hashString`: `"Aa" = [65, 97]` and
`"BB" = [66, 66]` have the equal hash 2112 (the classic Java string-hash
collision, which this string hash reproduces), as does `[64, 128]`
(`"@\x80"`); `"a" = [97]`, `"\x81" = [129]` and `"b" = [98]` hash to 97,
129 and 98. -/

/-- C1: inserting two keys with equal hashes builds a collision node
whose pairs are `{key, value}` objects, and `get` of either key then
throws a TypeError destructuring a pair as an array — it does not return
`Ok(v)`.  This evaluates the embedded code at the failing input
`get(insert(insert(empty, "Aa", 1), "BB", 2), "BB")`. -/
theorem get_after_insert_typeerror_on_collision :
    hashString [65, 97] = 2112 ∧ hashString [66, 66] = 2112 ∧
    ((set hashKU emptyDict [65, 97] (1 : Nat)).bind fun d =>
      set hashKU d [66, 66] 2).bind (fun d => get hashKU d [66, 66]) = .error () :=
  ⟨rfl, rfl, rfl⟩

/-- C2 counterexample: `insert` into a map containing a collision node
throws the collision-pair TypeError, so `size(insert(m, k, v))` has no
value at all there; the size law as stated fails on such maps.  The first
conjunct shows the map is reachable from `empty`. -/
theorem set_into_collision_typeerror :
    ((set hashKU emptyDict [65, 97] (1 : Nat)).bind fun d => set hashKU d [66, 66] 2) =
      .ok ⟨.collision 2112 [([66, 66], 2), ([65, 97], 1)], 2⟩ ∧
    set hashKU (⟨.collision 2112 [([66, 66], 2), ([65, 97], 1)], 2⟩ : Dict (List Nat) Nat)
      [65, 97] 9 = .error () :=
  ⟨rfl, rfl⟩

/-- C3: removing through an array node whose recursive alteration empties
a child slot returns a new array node with the slot cleared but the
`size` field NOT decremented (the source passes `node.size` unchanged):
here a 2-slot array node yields size field 2 with only 1 nonempty slot. -/
theorem alter_array_remove_keeps_size_field :
    alter 0
      (Node.array 2
        (((List.replicate 32 (Option.none (α := Node Nat Nat))).set 0
            (some (.leaf 0 0 0))).set 1 (some (.leaf 1 1 1))))
      0 0 (fun arg s => (none, if arg ≠ none then s - 1 else s)) (0 : Int) =
      .ok (.array 2 ((List.replicate 32 Option.none).set 1 (some (.leaf 1 1 1))), -1) ∧
    ((List.replicate 32 (Option.none (α := Node Nat Nat))).set 1
        (some (.leaf 1 1 1))).countP Option.isSome = 1 :=
  ⟨rfl, by decide⟩

/-- C4 counterexample: after `insert "a"`, `insert "\x81"`, `insert "b"`,
`remove "a"` the resulting map's root is a packed node whose first child
is a packed node with a single child — a persistent, non-root interior
node that is not the transient result of a merge (it was produced by the
removal path of `alterPackedNode`, which never collapses a surviving
single child). -/
theorem persistent_unary_packed_node :
    applyOps hashKU [Op.ins [97] (0 : Nat), Op.ins [129] 0, Op.ins [98] 0, Op.del [97]] =
      .ok ⟨.packed 6 [.packed 16 [.leaf 129 [129] 0], .leaf 98 [98] 0], 2⟩ ∧
    hasUnaryPackedList [Node.packed 16 [.leaf 129 ([129] : List Nat) (0 : Nat)],
      .leaf 98 [98] 0] = true :=
  ⟨rfl, rfl⟩

/-- C7 counterexample: removing a key that is absent from the map but
whose hash matches a collision node's hash throws the collision-pair
TypeError instead of returning the original map.  The key `[64, 128]`
is not among the stored keys, yet `remove` fails. -/
theorem remove_absent_key_typeerror :
    ((set hashKU emptyDict [65, 97] (1 : Nat)).bind fun d => set hashKU d [66, 66] 2) =
      .ok ⟨.collision 2112 [([66, 66], 2), ([65, 97], 1)], 2⟩ ∧
    ([64, 128] : List Nat) ∉ keysOf (Node.collision 2112 [([66, 66], (2 : Nat)), ([65, 97], 1)]) ∧
    remove hashKU (⟨.collision 2112 [([66, 66], 2), ([65, 97], 1)], 2⟩ : Dict (List Nat) Nat)
      [64, 128] = .error () :=
  ⟨rfl, by decide, rfl⟩

/-! ## Arithmetic of `toInt32` -/

theorem toInt32_add_left (a b : Int) : toInt32 (toInt32 a + b) = toInt32 (a + b) := by
  unfold toInt32
  have h : (a + 2 ^ 31) % 2 ^ 32 - 2 ^ 31 + b + 2 ^ 31 =
      (a + 2 ^ 31) % 2 ^ 32 + b := by ring
  rw [h, Int.emod_add_emod]
  ring_nf

/-! ## Structural induction on trees -/

theorem node_strong (P : Node K V → Prop)
    (h : ∀ n : Node K V, (∀ m : Node K V, sizeOf m < sizeOf n → P m) → P n) :
    ∀ n, P n := by
  have key : ∀ (k : Nat) (n : Node K V), sizeOf n < k → P n := by
    intro k
    induction k with
    | zero => exact fun n hn => absurd hn (by omega)
    | succ k ih => exact fun n _ => h n (fun m hm => ih m (by omega))
  exact fun n => key (sizeOf n + 1) n (by omega)

theorem sizeOf_lt_of_mem_nodes {cs : List (Node K V)} {c : Node K V} (h : c ∈ cs)
    (bm : Nat) : sizeOf c < sizeOf (Node.packed bm cs) := by
  have := List.sizeOf_lt_of_mem h
  simp only [Node.packed.sizeOf_spec]
  omega

theorem sizeOf_lt_of_mem_optNodes {cs : List (Option (Node K V))} {c : Node K V}
    (h : some c ∈ cs) (n : Nat) : sizeOf c < sizeOf (Node.array n cs) := by
  have h1 := List.sizeOf_lt_of_mem h
  have h2 : sizeOf (some c) = 1 + sizeOf c := by simp
  simp only [Node.array.sizeOf_spec]
  omega

theorem node_ind (P : Node K V → Prop) (he : P .empty) (hl : ∀ h k v, P (.leaf h k v))
    (hc : ∀ h ps, P (.collision h ps))
    (hp : ∀ bm cs, (∀ c ∈ cs, P c) → P (.packed bm cs))
    (ha : ∀ n cs, (∀ c, some c ∈ cs → P c) → P (.array n cs)) : ∀ n, P n := by
  refine node_strong P (fun n ih => ?_)
  match n with
  | .empty => exact he
  | .leaf h k v => exact hl h k v
  | .collision h ps => exact hc h ps
  | .packed bm cs => exact hp bm cs fun c hm => ih c (sizeOf_lt_of_mem_nodes hm bm)
  | .array n cs => exact ha n cs fun c hm => ih c (sizeOf_lt_of_mem_optNodes hm n)

/-! ## Structural equality is propositional equality -/

theorem nodeListEq_iff_of : ∀ (cs cs' : List (Node K V)),
    (∀ c ∈ cs, ∀ b, nodeEq c b = true ↔ c = b) →
    (nodeListEq cs cs' = true ↔ cs = cs') := by
  intro cs
  induction cs with
  | nil => intro cs' _; cases cs' <;> simp [nodeListEq]
  | cons c cs ih =>
    intro cs' H
    cases cs' with
    | nil => simp [nodeListEq]
    | cons c' cs' =>
      have h1 := H c (by simp)
      have h2 := ih cs' (fun x hx b => H x (by simp [hx]) b)
      simp [nodeListEq, Bool.and_eq_true, h1 c', h2]

theorem nodeOptListEq_iff_of : ∀ (cs cs' : List (Option (Node K V))),
    (∀ c, some c ∈ cs → ∀ b, nodeEq c b = true ↔ c = b) →
    (nodeOptListEq cs cs' = true ↔ cs = cs') := by
  intro cs
  induction cs with
  | nil => intro cs' _; cases cs' <;> simp [nodeOptListEq]
  | cons o cs ih =>
    intro cs' H
    cases cs' with
    | nil => cases o <;> simp [nodeOptListEq]
    | cons o' cs' =>
      have h2 := ih cs' (fun x hx b => H x (by simp [hx]) b)
      cases o with
      | none => cases o' <;> simp [nodeOptListEq, h2]
      | some c =>
        cases o' with
        | none => simp [nodeOptListEq]
        | some c' =>
          have h1 := H c (by simp)
          simp [nodeOptListEq, Bool.and_eq_true, h1 c', h2]

theorem nodeEq_iff : ∀ (a b : Node K V), nodeEq a b = true ↔ a = b := by
  refine node_ind (fun a => ∀ b, nodeEq a b = true ↔ a = b) ?_ ?_ ?_ ?_ ?_
  · intro b; cases b <;> simp [nodeEq]
  · intro h k v b; cases b <;> simp [nodeEq, Bool.and_eq_true, decide_eq_true_iff, and_assoc]
  · intro h ps b; cases b <;> simp [nodeEq, Bool.and_eq_true, decide_eq_true_iff]
  · intro bm cs IH b
    cases b <;> simp [nodeEq, Bool.and_eq_true, decide_eq_true_iff, nodeListEq_iff_of cs _ IH]
  · intro n cs IH b
    cases b <;> simp [nodeEq, Bool.and_eq_true, decide_eq_true_iff, nodeOptListEq_iff_of cs _ IH]

theorem nodeEq_refl (a : Node K V) : nodeEq a a = true := (nodeEq_iff a a).2 rfl

theorem isEmptyNode_iff (n : Node K V) : isEmptyNode n = true ↔ n = .empty := by
  cases n <;> simp [isEmptyNode]

/-! ## The child-selection helpers read the selected child -/

theorem alterListNth_eq (cs : List (Node K V)) (i sh : Nat) (key : K) (keyHash : Nat)
    (f : Option V → σ → Option V × σ) (s : σ) :
    alterListNth cs i sh key keyHash f s =
      match cs[i]? with
      | some c => alter sh c key keyHash f s
      | none => .error () := by
  induction cs generalizing i with
  | nil => simp [alterListNth]
  | cons c cs ih =>
    cases i with
    | zero => simp [alterListNth]
    | succ i => simpa [alterListNth] using ih i

theorem alterOptListNth_eq (cs : List (Option (Node K V))) (i sh : Nat) (key : K)
    (keyHash : Nat) (f : Option V → σ → Option V × σ) (s : σ) :
    alterOptListNth cs i sh key keyHash f s =
      match cs[i]? with
      | some (some c) => alter sh c key keyHash f s
      | _ => .error () := by
  induction cs generalizing i with
  | nil => simp [alterOptListNth]
  | cons o cs ih =>
    cases i with
    | zero => cases o <;> simp [alterOptListNth]
    | succ i => cases o <;> simpa [alterOptListNth] using ih i

theorem findListNth_eq (cs : List (Node K V)) (i sh : Nat) (key : K) (keyHash : Nat) :
    findListNth cs i sh key keyHash =
      match cs[i]? with
      | some c => find sh c key keyHash
      | none => .error () := by
  induction cs generalizing i with
  | nil => simp [findListNth]
  | cons c cs ih =>
    cases i with
    | zero => simp [findListNth]
    | succ i => simpa [findListNth] using ih i

theorem findOptListNth_eq (cs : List (Option (Node K V))) (i sh : Nat) (key : K)
    (keyHash : Nat) :
    findOptListNth cs i sh key keyHash =
      match cs[i]? with
      | some (some c) => find sh c key keyHash
      | _ => .ok none := by
  induction cs generalizing i with
  | nil => simp [findOptListNth]
  | cons o cs ih =>
    cases i with
    | zero => cases o <;> simp [findOptListNth]
    | succ i => cases o <;> simpa [findOptListNth] using ih i

/-! ## `alter` probes exactly where `find` looks

Whenever `alter` completes, the decision callback was invoked exactly
once, with precisely the argument `find` would report for the same key:
`NO_VALUE` on a miss and the present value on a hit; the final state is
that single invocation's state.  This holds for arbitrary trees. -/

theorem alter_ok_find (key : K) (keyHash : Nat) (f : Option V → σ → Option V × σ) :
    ∀ (node : Node K V) (shift : Nat) (s : σ) (r : Node K V × σ),
      alter shift node key keyHash f s = .ok r →
      ∃ arg, find shift node key keyHash = .ok arg ∧ r.2 = (f arg s).2 := by
  refine node_ind (fun node => ∀ (shift : Nat) (s : σ) (r : Node K V × σ),
    alter shift node key keyHash f s = .ok r →
    ∃ arg, find shift node key keyHash = .ok arg ∧ r.2 = (f arg s).2) ?_ ?_ ?_ ?_ ?_
  · intro shift s r h
    simp only [alter, Except.ok.injEq] at h
    exact ⟨none, rfl, by rw [← h]⟩
  · intro hh k v shift s r h
    simp only [alter] at h
    by_cases hk : key = k
    · rw [if_pos hk] at h
      simp only [Except.ok.injEq] at h
      exact ⟨some v, by simp [find, hk], by rw [← h]⟩
    · rw [if_neg hk] at h
      simp only [Except.ok.injEq] at h
      exact ⟨none, by simp [find, hk], by rw [← h]⟩
  · intro hh ps shift s r h
    simp only [alter] at h
    by_cases hne : keyHash ≠ hh
    · rw [if_pos hne] at h
      simp only [Except.ok.injEq] at h
      exact ⟨none, by simp [find, hne], by rw [← h]⟩
    · rw [if_neg hne] at h
      cases ps with
      | nil =>
        simp only [Except.ok.injEq] at h
        exact ⟨none, by simp [find, hne], by rw [← h]⟩
      | cons p ps => exact absurd h (by simp)
  · intro bitmap cs IH shift s r h
    simp only [alter] at h
    by_cases hbit : bitmap &&& toMask (hashFragment shift keyHash) ≠ 0
    · rw [if_pos hbit] at h
      cases haln : alterListNth cs (popCount (bitmap &&& (toMask (hashFragment shift keyHash) - 1)))
          (shift + FRAGMENT_SIZE) key keyHash f s with
      | error e => rw [haln] at h; exact absurd h (by simp)
      | ok p =>
        rw [haln] at h
        simp only [Except.ok.injEq] at h
        rw [alterListNth_eq] at haln
        cases hc : cs[popCount (bitmap &&& (toMask (hashFragment shift keyHash) - 1))]? with
        | none => rw [hc] at haln; exact absurd haln (by simp)
        | some c =>
          rw [hc] at haln
          obtain ⟨arg, hfind, hst⟩ :=
            IH c (List.getElem?_mem hc) (shift + FRAGMENT_SIZE) s p haln
          refine ⟨arg, ?_, ?_⟩
          · simp only [find]
            have hm : (1 <<< (hashFragment shift keyHash % 32)) =
                toMask (hashFragment shift keyHash) := rfl
            rw [hm, if_neg (by simpa using hbit), findListNth_eq, hc]
            exact hfind
          · rw [← h]
            exact hst
    · rw [if_neg hbit] at h
      refine ⟨none, ?_, ?_⟩
      · simp only [find]
        have hm : (1 <<< (hashFragment shift keyHash % 32)) =
            toMask (hashFragment shift keyHash) := rfl
        rw [hm, if_pos (by simpa using hbit)]
      · rcases hop : (f none s).1 with _ | v'
        · rw [hop] at h
          simp only [Except.ok.injEq] at h
          rw [← h]
        · rw [hop] at h
          dsimp only at h
          by_cases hlen : MAX_CHILDREN_IN_PACKED_NODE ≤ cs.length
          · rw [if_pos hlen] at h
            simp only [Except.ok.injEq] at h
            rw [← h]
          · rw [if_neg hlen] at h
            simp only [Except.ok.injEq] at h
            rw [← h]
  · intro n cs IH shift s r h
    simp only [alter] at h
    cases hslot : cs.getD (hashFragment shift keyHash) none with
    | none =>
      rw [hslot] at h
      simp only [Except.ok.injEq] at h
      refine ⟨none, ?_, by rw [← h]⟩
      simp only [find, findOptListNth_eq]
      have : cs[hashFragment shift keyHash]? = none ∨
          cs[hashFragment shift keyHash]? = some none := by
        rcases hge : cs[hashFragment shift keyHash]? with _ | o
        · exact Or.inl rfl
        · right
          rw [List.getD_eq_getElem?_getD, hge] at hslot
          simp at hslot
          rw [hslot]
      rcases this with hge | hge <;> rw [hge]
    | some child =>
      rw [hslot] at h
      cases haln : alterOptListNth cs (hashFragment shift keyHash)
          (shift + FRAGMENT_SIZE) key keyHash f s with
      | error e => rw [haln] at h; exact absurd h (by simp)
      | ok p =>
        rw [haln] at h
        simp only [Except.ok.injEq] at h
        have hge : cs[hashFragment shift keyHash]? = some (some child) := by
          rw [List.getD_eq_getElem?_getD] at hslot
          rcases hg : cs[hashFragment shift keyHash]? with _ | o
          · rw [hg] at hslot; simp at hslot
          · rw [hg] at hslot
            simp at hslot
            rw [hslot]
        rw [alterOptListNth_eq, hge] at haln
        obtain ⟨arg, hfind, hst⟩ :=
          IH child (by exact List.getElem?_mem hge) (shift + FRAGMENT_SIZE) s p haln
        refine ⟨arg, ?_, ?_⟩
        · simp only [find, findOptListNth_eq]
          rw [hge]
          exact hfind
        · rw [← h]
          exact hst

/-- C2 amended: whenever `insert` (respectively `remove`) completes
without the collision-pair TypeError, the lookup for the key completes
too, and the new size is the old size plus 1 exactly when the key was
absent (respectively minus 1 exactly when it was present). -/
theorem size_change_of_set_remove (d : Dict K V) (k : K) (v : V) :
    (∀ d', set hashK d k v = .ok d' →
      ∃ r, get hashK d k = .ok r ∧ d'.size = d.size + if r = none then 1 else 0) ∧
    (∀ d', remove hashK d k = .ok d' →
      ∃ r, get hashK d k = .ok r ∧ d'.size = d.size - if r = none then 0 else 1) := by
  constructor
  · intro d' h
    unfold set at h
    cases halt : alter 0 d.root k (hashK k)
        (fun arg s => (some v, if arg = none then s + 1 else s)) d.size with
    | error e => rw [halt] at h; exact absurd h (by simp [Except.map])
    | ok p =>
      rw [halt] at h
      simp only [Except.map, Except.ok.injEq] at h
      obtain ⟨arg, hfind, hst⟩ := alter_ok_find k (hashK k) _ d.root 0 d.size p halt
      refine ⟨arg, by unfold get; rw [hfind]; rfl, ?_⟩
      rw [← h]
      simp only [hst]
      rcases arg with _ | w <;> simp
  · intro d' h
    unfold remove at h
    cases halt : alter 0 d.root k (hashK k)
        (fun arg s => (none, if arg ≠ none then s - 1 else s)) d.size with
    | error e => rw [halt] at h; exact absurd h (by simp [Except.map])
    | ok p =>
      rw [halt] at h
      simp only [Except.map, Except.ok.injEq] at h
      obtain ⟨arg, hfind, hst⟩ := alter_ok_find k (hashK k) _ d.root 0 d.size p halt
      refine ⟨arg, by unfold get; rw [hfind]; rfl, ?_⟩
      rw [← h]
      simp only [hst]
      rcases arg with _ | w <;> simp

/-- Witness for the amended C2 at concrete inputs: inserting a fresh key
into the empty map gives size 1; removing an absent key keeps size 0. -/
theorem size_change_of_set_remove_witness :
    set hashKU (emptyDict : Dict (List Nat) Nat) [97] 5 = .ok ⟨.leaf 97 [97] 5, 1⟩ ∧
    (∃ r, get hashKU (emptyDict : Dict (List Nat) Nat) [97] = .ok r ∧
      (⟨Node.leaf 97 [97] 5, 1⟩ : Dict (List Nat) Nat).size =
        (emptyDict : Dict (List Nat) Nat).size + if r = none then 1 else 0) ∧
    (∃ r, get hashKU (emptyDict : Dict (List Nat) Nat) [97] = .ok r ∧
      (⟨Node.empty, 0⟩ : Dict (List Nat) Nat).size =
        (emptyDict : Dict (List Nat) Nat).size - if r = none then 0 else 1) :=
  ⟨rfl,
   (size_change_of_set_remove hashKU emptyDict [97] 5).1 _ rfl,
   (size_change_of_set_remove hashKU emptyDict [97] 5).2 _ rfl⟩

/-! ## A completed miss leaves the tree untouched (C7) -/

theorem wfNodeList_elem {cs : List (Node K V)} (hwfl : wfNodeList cs = true)
    {c : Node K V} (hc : c ∈ cs) : wfNode c = true ∧ isEmptyNode c = false := by
  induction cs with
  | nil => cases hc
  | cons x xs ih =>
    simp only [wfNodeList, Bool.and_eq_true, Bool.not_eq_true'] at hwfl
    rcases List.mem_cons.1 hc with hx | hx
    · exact ⟨hx ▸ hwfl.1.2, hx ▸ hwfl.1.1⟩
    · exact ih hwfl.2 hx

theorem wfNodeOptList_elem {cs : List (Option (Node K V))} (hwfl : wfNodeOptList cs = true)
    {c : Node K V} (hc : some c ∈ cs) : wfNode c = true ∧ isEmptyNode c = false := by
  induction cs with
  | nil => cases hc
  | cons x xs ih =>
    cases x with
    | none =>
      simp only [wfNodeOptList] at hwfl
      rcases List.mem_cons.1 hc with hx | hx
      · exact absurd hx (by simp)
      · exact ih hwfl hx
    | some y =>
      simp only [wfNodeOptList, Bool.and_eq_true, Bool.not_eq_true'] at hwfl
      rcases List.mem_cons.1 hc with hx | hx
      · have hyc : y = c := by injection hx with hx'; exact hx'.symm
        exact ⟨hyc ▸ hwfl.1.2, hyc ▸ hwfl.1.1⟩
      · exact ih hwfl.2 hx

theorem alter_miss (key : K) (keyHash : Nat) (f : Option V → σ → Option V × σ)
    (hf : ∀ s, f none s = (none, s)) :
    ∀ (node : Node K V), wfNode node = true → ∀ (shift : Nat) (s : σ),
      find shift node key keyHash = .ok none →
      alter shift node key keyHash f s = .ok (node, s) := by
  refine node_ind (fun node => wfNode node = true → ∀ (shift : Nat) (s : σ),
    find shift node key keyHash = .ok none →
    alter shift node key keyHash f s = .ok (node, s)) ?_ ?_ ?_ ?_ ?_
  · intro _ shift s _
    simp [alter, hf]
  · intro hh k v _ shift s hfind
    simp only [find, Except.ok.injEq] at hfind
    have hk : key ≠ k := by
      intro hkk
      rw [if_pos hkk] at hfind
      exact Option.noConfusion hfind
    simp [alter, hk, hf]
  · intro hh ps _ shift s hfind
    simp only [find] at hfind
    by_cases hne : keyHash ≠ hh
    · simp [alter, hne, hf]
    · rw [if_neg hne] at hfind
      cases ps with
      | nil => simp [alter, hne, hf]
      | cons p ps => exact absurd hfind (by simp)
  · intro bitmap cs IH hwf shift s hfind
    have hwfl : wfNodeList cs = true := by
      simp only [wfNode, Bool.and_eq_true] at hwf
      exact hwf.2
    simp only [find] at hfind
    have hm : (1 <<< (hashFragment shift keyHash % 32)) =
        toMask (hashFragment shift keyHash) := rfl
    rw [hm] at hfind
    by_cases hbit : bitmap &&& toMask (hashFragment shift keyHash) = 0
    · rw [if_pos hbit] at hfind
      simp only [alter]
      rw [if_neg (by simpa using hbit)]
      simp [hf]
    · rw [if_neg hbit] at hfind
      rw [findListNth_eq] at hfind
      cases hc : cs[popCount (bitmap &&& (toMask (hashFragment shift keyHash) - 1))]? with
      | none => rw [hc] at hfind; exact absurd hfind (by simp)
      | some c =>
        rw [hc] at hfind
        dsimp only at hfind
        have hcmem := List.getElem?_mem hc
        have hcwf := wfNodeList_elem hwfl hcmem
        have halt := IH c hcmem hcwf.1 (shift + FRAGMENT_SIZE) s hfind
        have hgd : cs.getD (popCount (bitmap &&& (toMask (hashFragment shift keyHash) - 1)))
            .empty = c := by
          rw [List.getD_eq_getElem?_getD, hc]
          rfl
        simp only [alter]
        rw [if_pos (by simpa using hbit), alterListNth_eq, hc]
        dsimp only
        rw [halt]
        dsimp only
        rw [hgd]
        simp [hcwf.2, nodeEq_refl]
  · intro n cs IH hwf shift s hfind
    have hwfl : wfNodeOptList cs = true := by
      simp only [wfNode, Bool.and_eq_true] at hwf
      exact hwf.2
    simp only [find, findOptListNth_eq] at hfind
    cases hc : cs[hashFragment shift keyHash]? with
    | none =>
      have hgd : cs.getD (hashFragment shift keyHash) none = none := by
        rw [List.getD_eq_getElem?_getD, hc]
        rfl
      simp only [alter]
      rw [hgd]
      simp [hf]
    | some o =>
      cases o with
      | none =>
        have hgd : cs.getD (hashFragment shift keyHash) none = none := by
          rw [List.getD_eq_getElem?_getD, hc]
          rfl
        simp only [alter]
        rw [hgd]
        simp [hf]
      | some c =>
        rw [hc] at hfind
        dsimp only at hfind
        have hcmem := List.getElem?_mem hc
        have hcwf := wfNodeOptList_elem hwfl hcmem
        have halt := IH c hcmem hcwf.1 (shift + FRAGMENT_SIZE) s hfind
        have hgd : cs.getD (hashFragment shift keyHash) none = some c := by
          rw [List.getD_eq_getElem?_getD, hc]
          rfl
        simp only [alter]
        rw [hgd, alterOptListNth_eq, hc]
        dsimp only
        rw [halt]
        dsimp only
        simp [nodeEq_refl]

/-- C7 amended: for a well-formed map (as every map built by the public
API is) and a key whose lookup completes with a miss, `remove` returns
the original map: the same root and the same size. -/
theorem remove_of_get_miss_eq_self (d : Dict K V) (k : K) (hwf : wfNode d.root = true)
    (h : get hashK d k = .ok none) : remove hashK d k = .ok d := by
  have hfind : find 0 d.root k (hashK k) = .ok none := by
    unfold get at h
    cases hf : find 0 d.root k (hashK k) with
    | error e => rw [hf] at h; exact absurd h (by simp [Except.map])
    | ok r =>
      rw [hf] at h
      simp only [Except.map, Except.ok.injEq] at h
      rw [h]
  unfold remove
  rw [alter_miss k (hashK k) _ (fun s => by simp) d.root hwf 0 d.size hfind]
  rfl

/-- Witness for the amended C7: removing the absent key `"b"` from the
singleton map `{"a" ↦ 1}` returns the map unchanged. -/
theorem remove_of_get_miss_eq_self_witness :
    wfNode (K := List Nat) (V := Nat) (.leaf 97 [97] 1) = true ∧
    get hashKU (⟨.leaf 97 [97] 1, 1⟩ : Dict (List Nat) Nat) [98] = .ok none ∧
    remove hashKU (⟨.leaf 97 [97] 1, 1⟩ : Dict (List Nat) Nat) [98] =
      .ok ⟨.leaf 97 [97] 1, 1⟩ :=
  ⟨rfl, rfl, remove_of_get_miss_eq_self hashKU ⟨.leaf 97 [97] 1, 1⟩ [98] rfl rfl⟩

/-! ## The string hash (C8) -/

/-- C8 counterexample: the source folds over UTF-16 code units
(`charCodeAt`), not code points: on the string holding the single code
point `0x10000` (the surrogate pair `D800 DC00`) it computes the fold of
the two surrogates, not of the code point. -/
theorem hashString_codepoints_cex :
    utf16Encode [0x10000] = [0xD800, 0xDC00] ∧
    hashString (utf16Encode [0x10000]) ≠ hashStringCodepoints [0x10000] :=
  ⟨rfl, by decide⟩

/-- C8 amended: for every string (every code-point sequence), the hash the
source computes is the 31-multiplier fold `h = (31·h + c) | 0` iterated
over the UTF-16 code units of the string, all arithmetic truncated to
signed 32-bit (`Math.imul(31, h)` truncates the product first; the extra
truncation does not change the fold). -/
theorem hashString_eq_unit_fold (codepoints : List Nat) :
    hashString (utf16Encode codepoints) =
      (utf16Encode codepoints).foldl (fun h c => toInt32 (31 * h + (c : Int))) 0 := by
  unfold hashString
  congr 1
  funext h c
  unfold imul
  exact toInt32_add_left (31 * h) (c : Int)

/-! ## mergeLeaves terminates within seven levels (C6) -/

theorem hashFragment_eq_div_mod {shift : Nat} (h : Nat) (hs : shift < 32) :
    hashFragment shift h = h / 2 ^ shift % 32 := by
  unfold hashFragment MASK BUCKET_SIZE FRAGMENT_SIZE
  rw [Nat.and_pow_two_sub_one_eq_mod, Nat.mod_eq_of_lt hs, Nat.shiftRight_eq_div_pow]

theorem exists_fragment_ne {hA hB : Nat} (hAlt : hA < 2 ^ 32) (hBlt : hB < 2 ^ 32)
    (hne : hA ≠ hB) :
    ∃ i < 7, hashFragment (5 * i) hA ≠ hashFragment (5 * i) hB := by
  by_contra hall
  push_neg at hall
  apply hne
  have h32 : (0 : Nat) < 32 := by norm_num
  have hA7 : hA < 32 ^ 7 := lt_of_lt_of_le hAlt (by norm_num)
  have hB7 : hB < 32 ^ 7 := lt_of_lt_of_le hBlt (by norm_num)
  have e1 := digitsSum_reconstruct h32 7 hA hA7
  have e2 := digitsSum_reconstruct h32 7 hB hB7
  rw [← e1, ← e2]
  refine digitsSum_congr 32 (fun i hi => ?_)
  have hf := hall i hi
  rw [hashFragment_eq_div_mod hA (by omega), hashFragment_eq_div_mod hB (by omega)] at hf
  have hp : (32 : Nat) ^ i = 2 ^ (5 * i) := by
    rw [show (32 : Nat) = 2 ^ 5 by norm_num, ← pow_mul]
  rw [hp]
  exact hf

theorem mergeLeavesLoop_isSome :
    ∀ (fuel shift hA : Nat) (a : Node K V) (hB : Nat) (b : Node K V),
    (∃ i < fuel, hashFragment (shift + 5 * i) hA ≠ hashFragment (shift + 5 * i) hB) →
    (mergeLeavesLoop fuel shift hA a hB b).isSome = true := by
  intro fuel
  induction fuel with
  | zero => intro shift hA a hB b ⟨i, hi, _⟩; omega
  | succ fuel ih =>
    intro shift hA a hB b ⟨i, hi, hne⟩
    simp only [mergeLeavesLoop]
    by_cases heq : hashFragment shift hA = hashFragment shift hB
    · rw [if_pos heq]
      have hi0 : i ≠ 0 := by
        intro h0
        subst h0
        simp only [Nat.mul_zero, Nat.add_zero] at hne
        exact hne heq
      have hrec : (mergeLeavesLoop fuel (shift + FRAGMENT_SIZE) hA a hB b).isSome = true := by
        refine ih (shift + FRAGMENT_SIZE) hA a hB b ⟨i - 1, by omega, ?_⟩
        have harith : shift + FRAGMENT_SIZE + 5 * (i - 1) = shift + 5 * i := by
          unfold FRAGMENT_SIZE
          omega
        rw [harith]
        exact hne
      cases hml : mergeLeavesLoop fuel (shift + FRAGMENT_SIZE) hA a hB b with
      | none => rw [hml] at hrec; exact absurd hrec (by simp)
      | some c => rfl
    · rw [if_neg heq]
      by_cases hlt : hashFragment shift hA < hashFragment shift hB
      · rw [if_pos hlt]; rfl
      · rw [if_neg hlt]; rfl

theorem mergeLeavesLoop_mono :
    ∀ (f1 : Nat) (f2 shift hA : Nat) (a : Node K V) (hB : Nat) (b : Node K V) (r : Node K V),
    f1 ≤ f2 → mergeLeavesLoop f1 shift hA a hB b = some r →
    mergeLeavesLoop f2 shift hA a hB b = some r := by
  intro f1
  induction f1 with
  | zero => intro f2 shift hA a hB b r _ h; exact absurd h (by simp [mergeLeavesLoop])
  | succ f1 ih =>
    intro f2 shift hA a hB b r hle h
    obtain ⟨f2p, rfl⟩ : ∃ f2p, f2 = f2p + 1 := ⟨f2 - 1, by omega⟩
    simp only [mergeLeavesLoop] at h ⊢
    by_cases heq : hashFragment shift hA = hashFragment shift hB
    · rw [if_pos heq] at h ⊢
      obtain ⟨c, hc, hcr⟩ := Option.map_eq_some'.1 h
      rw [ih f2p (shift + FRAGMENT_SIZE) hA a hB b c (by omega) hc]
      simpa using hcr
    · rw [if_neg heq] at h ⊢
      exact h

/-- C6: for every pair of distinct 32-bit hashes the `mergeLeaves` loop
from shift 0 terminates within 7 levels (the two hashes differ at some
5-bit fragment taken at a shift of at most 30), and the full loop
(fuel 32 here, unbounded in the source) computes the very same node. -/
theorem mergeLeavesLoop_seven_levels (hA hB : Nat) (a b : Node K V)
    (hAlt : hA < 2 ^ 32) (hBlt : hB < 2 ^ 32) (hne : hA ≠ hB) :
    ∃ r, mergeLeavesLoop 7 0 hA a hB b = some r ∧ mergeLeaves 0 hA a hB b = r := by
  obtain ⟨i, hi, hfrag⟩ := exists_fragment_ne hAlt hBlt hne
  have hsome := mergeLeavesLoop_isSome 7 0 hA a hB b ⟨i, hi, by simpa using hfrag⟩
  obtain ⟨r, hr⟩ := Option.isSome_iff_exists.1 hsome
  refine ⟨r, hr, ?_⟩
  unfold mergeLeaves
  rw [if_neg hne, mergeLeavesLoop_mono 7 32 0 hA a hB b r (by norm_num) hr]
  rfl

theorem mergeLeavesLoop_seven_levels_witness :
    ∃ r, mergeLeavesLoop 7 0 0 (Node.leaf 0 0 (0 : Nat)) 1 (Node.leaf 1 1 1) = some r ∧
      mergeLeaves 0 0 (Node.leaf 0 0 (0 : Nat)) 1 (Node.leaf 1 1 1) = r :=
  mergeLeavesLoop_seven_levels 0 1 _ _ (by norm_num) (by norm_num) (by norm_num)

/-! ## The empty compound values all hash to zero (C10) -/

/-- C10: the default hash maps the empty string, an empty array, an empty
byte buffer, an empty `Set`, an empty `Map` and a record with no fields
all to `0` (each takes a fold over zero elements starting from `0`), so
these six pairwise-distinct values collide on the same hash. -/
theorem getHash_empty_values_zero :
    (∀ v ∈ [JSValue.str [], .obj .missing (.arr []), .obj .missing (.buffer []),
        .obj .missing (.jsSet []), .obj .missing (.jsMap []),
        .obj .missing (.record [])], getHash v = 0) ∧
    List.Pairwise (fun a b => a ≠ b)
      [JSValue.str [], .obj .missing (.arr []), .obj .missing (.buffer []),
        .obj .missing (.jsSet []), .obj .missing (.jsMap []),
        .obj .missing (.record [])] := by
  constructor
  · intro v hv
    simp only [List.mem_cons, List.not_mem_nil, or_false] at hv
    rcases hv with rfl | rfl | rfl | rfl | rfl | rfl <;> rfl
  · simp


/-! ## Hash totality (C5) -/

theorem toInt32_isInt32 (n : Int) : isInt32 (toInt32 n) := by
  unfold toInt32 isInt32
  constructor
  · have := Int.emod_nonneg (n + 2 ^ 31) (b := (2 : Int) ^ 32) (by norm_num)
    omega
  · have := Int.emod_lt_of_pos (n + 2 ^ 31) (b := (2 : Int) ^ 32) (by norm_num)
    omega

theorem ixor_isInt32 (a b : Int) : isInt32 (ixor a b) := toInt32_isInt32 _

theorem hashNumber_isInt32 (bits : Nat) : isInt32 (hashNumber bits) := ixor_isInt32 _ _

theorem hashString_fold_isInt32 : ∀ (units : List Nat) (h : Int), isInt32 h →
    isInt32 (units.foldl (fun h c => toInt32 (imul 31 h + (c : Int))) h)
  | [], _, hh => hh
  | _ :: rest, _, _ => hashString_fold_isInt32 rest _ (toInt32_isInt32 _)

theorem hashString_isInt32 (units : List Nat) : isInt32 (hashString units) :=
  hashString_fold_isInt32 units 0 (by unfold isInt32; norm_num)

theorem hashByteList_isInt32 : ∀ (bytes : List Nat) (h : Int), isInt32 h →
    isInt32 (hashByteList bytes h)
  | [], _, hh => hh
  | _ :: rest, _, _ => hashByteList_isInt32 rest _ (toInt32_isInt32 _)

theorem hashArrElems_isInt32 : ∀ (elems : List JSValue) (h : Int), isInt32 h →
    isInt32 (hashArrElems elems h)
  | [], _, hh => hh
  | _ :: rest, _, _ => hashArrElems_isInt32 rest _ (toInt32_isInt32 _)

theorem hashSetElems_isInt32 : ∀ (elems : List JSValue) (h : Int), isInt32 h →
    isInt32 (hashSetElems elems h)
  | [], _, hh => hh
  | _ :: rest, _, _ => hashSetElems_isInt32 rest _ (toInt32_isInt32 _)

theorem hashMapPairs_isInt32 : ∀ (pairs : List (JSValue × JSValue)) (h : Int), isInt32 h →
    isInt32 (hashMapPairs pairs h)
  | [], _, hh => hh
  | (_, _) :: rest, _, _ => hashMapPairs_isInt32 rest _ (toInt32_isInt32 _)

theorem hashRecordFields_isInt32 : ∀ (fields : List (List Nat × JSValue)) (h : Int),
    isInt32 h → isInt32 (hashRecordFields fields h)
  | [], _, hh => hh
  | (_, _) :: rest, _, _ => hashRecordFields_isInt32 rest _ (toInt32_isInt32 _)

theorem isInt32_zero : isInt32 0 := by unfold isInt32; norm_num

/-- C5 counterexample: `hashObject` returns a `hashCode()` number verbatim
(no `| 0` truncation), so a capability answering `2^31` makes the hash of
the value `2^31`, which is not a 32-bit integer. -/
theorem getHash_hashCode_not_int32 :
    getHash (.obj (.retNumber (2 ^ 31)) (.record [])) = 2 ^ 31 ∧
      ¬ isInt32 (2 ^ 31) :=
  ⟨rfl, by unfold isInt32; norm_num⟩

/-- C5 (amended): `getHash` is total on the modelled values — every case
returns — and yields a 32-bit integer for every admissible value whose
`hashCode` capabilities return 32-bit integers; a raised failure from a
user-supplied `hashCode` falls back to the default object hash. -/
theorem getHash_int32_and_raise_fallback :
    (∀ v, goodValue v = true → isInt32 (getHash v)) ∧
    (∀ o, getHash (.obj .raises o) = getHash (.obj .missing o)) := by
  constructor
  · intro v hv
    match v with
    | .null =>
      show isInt32 (0x42108422 : Int)
      unfold isInt32
      norm_num
    | .undef =>
      show isInt32 (0x42108423 : Int)
      unfold isInt32
      norm_num
    | .bool true =>
      show isInt32 (0x42108421 : Int)
      unfold isInt32
      norm_num
    | .bool false =>
      show isInt32 (0x42108420 : Int)
      unfold isInt32
      norm_num
    | .num bits => exact hashNumber_isInt32 bits
    | .str units => exact hashString_isInt32 units
    | .bigint n => exact hashString_isInt32 (decimalUnits n)
    | .symbolOrFn id =>
      have hb : id < 0x7fffffff := of_decide_eq_true (hv : decide (id < 0x7fffffff) = true)
      show isInt32 (id : Int)
      unfold isInt32
      constructor <;> omega
    | .obj hc o =>
      have hv2 : (goodCap hc && goodObject o) = true := hv
      rw [Bool.and_eq_true] at hv2
      obtain ⟨hcap, hobj⟩ := hv2
      match hc with
      | .retNumber n =>
        show isInt32 n
        exact of_decide_eq_true (hcap : decide (isInt32 n) = true)
      | .missing | .raises | .retOther =>
        show isInt32 (hashObjectDefault o)
        match o with
        | .refObj id =>
          have hb : id < 0x7fffffff :=
            of_decide_eq_true (hobj : decide (id < 0x7fffffff) = true)
          show isInt32 (id : Int)
          unfold isInt32
          constructor <;> omega
        | .date bits => exact hashNumber_isInt32 bits
        | .buffer bytes => exact hashByteList_isInt32 bytes 0 isInt32_zero
        | .arr elems => exact hashArrElems_isInt32 elems 0 isInt32_zero
        | .jsSet elems => exact hashSetElems_isInt32 elems 0 isInt32_zero
        | .jsMap pairs => exact hashMapPairs_isInt32 pairs 0 isInt32_zero
        | .record fields => exact hashRecordFields_isInt32 fields 0 isInt32_zero
  · intro o
    rfl

/-- A concrete instance of C5-amended: an admissible value with an int32
`hashCode`, and the raise-fallback equation at a record. -/
theorem getHash_int32_and_raise_fallback_witness :
    (goodValue (.obj (.retNumber 7) (.record [])) = true →
      isInt32 (getHash (.obj (.retNumber 7) (.record [])))) ∧
    getHash (.obj .raises (.record [])) = getHash (.obj .missing (.record [])) :=
  ⟨getHash_int32_and_raise_fallback.1 _, getHash_int32_and_raise_fallback.2 _⟩


/-! ## Preservation of well-formedness (towards C4) -/

theorem wfNodeList_eraseIdx (cs : List (Node K V)) :
    ∀ (i : Nat), wfNodeList cs = true → wfNodeList (cs.eraseIdx i) = true := by
  induction cs with
  | nil => intro i _; rfl
  | cons c cs ih =>
    intro i h
    simp only [wfNodeList, Bool.and_eq_true] at h
    cases i with
    | zero => simpa [List.eraseIdx] using h.2
    | succ i =>
      simp only [List.eraseIdx, wfNodeList, Bool.and_eq_true]
      exact ⟨h.1, ih i h.2⟩

theorem wfNodeList_set (cs : List (Node K V)) :
    ∀ (i : Nat) (c : Node K V), wfNodeList cs = true → wfNode c = true →
      isEmptyNode c = false → wfNodeList (cs.set i c) = true := by
  induction cs with
  | nil => intro i c _ _ _; rfl
  | cons x xs ih =>
    intro i c h hc he
    simp only [wfNodeList, Bool.and_eq_true] at h
    cases i with
    | zero =>
      simp only [List.set, wfNodeList, Bool.and_eq_true]
      exact ⟨⟨by simp [he], hc⟩, h.2⟩
    | succ i =>
      simp only [List.set, wfNodeList, Bool.and_eq_true]
      exact ⟨h.1, ih i c h.2 hc he⟩

theorem wfNodeList_insertIdx (cs : List (Node K V)) :
    ∀ (i : Nat) (c : Node K V), wfNodeList cs = true → wfNode c = true →
      isEmptyNode c = false → wfNodeList (List.insertIdx i c cs) = true := by
  induction cs with
  | nil =>
    intro i c _ hc he
    cases i with
    | zero =>
      rw [List.insertIdx_zero]
      simp only [wfNodeList, Bool.and_eq_true]
      exact ⟨⟨by simp [he], hc⟩, trivial⟩
    | succ i =>
      rw [List.insertIdx_succ_nil]
      rfl
  | cons x xs ih =>
    intro i c h hc he
    simp only [wfNodeList, Bool.and_eq_true] at h
    cases i with
    | zero =>
      rw [List.insertIdx_zero]
      simp only [wfNodeList, Bool.and_eq_true]
      exact ⟨⟨by simp [he], hc⟩, h⟩
    | succ i =>
      rw [List.insertIdx_succ_cons]
      simp only [wfNodeList, Bool.and_eq_true]
      exact ⟨h.1, ih i c h.2 hc he⟩

theorem wfNodeOptList_set (cs : List (Option (Node K V))) :
    ∀ (i : Nat) (o : Option (Node K V)), wfNodeOptList cs = true →
      (∀ c, o = some c → wfNode c = true ∧ isEmptyNode c = false) →
      wfNodeOptList (cs.set i o) = true := by
  induction cs with
  | nil => intro i o _ _; rfl
  | cons x xs ih =>
    intro i o h ho
    cases i with
    | zero =>
      have hx : wfNodeOptList xs = true := by
        cases x with
        | none => simpa [wfNodeOptList] using h
        | some y => simp only [wfNodeOptList, Bool.and_eq_true] at h; exact h.2
      cases o with
      | none => simpa [List.set, wfNodeOptList] using hx
      | some c =>
        obtain ⟨hc, he⟩ := ho c rfl
        simp only [List.set, wfNodeOptList, Bool.and_eq_true]
        exact ⟨⟨by simp [he], hc⟩, hx⟩
    | succ i =>
      cases x with
      | none =>
        simp only [wfNodeOptList] at h
        simpa [List.set, wfNodeOptList] using ih i o h ho
      | some y =>
        simp only [wfNodeOptList, Bool.and_eq_true] at h
        simp only [List.set, wfNodeOptList, Bool.and_eq_true]
        exact ⟨h.1, ih i o h.2 ho⟩

theorem wfNodeOptList_replicate (n : Nat) :
    wfNodeOptList (K := K) (V := V) (List.replicate n none) = true := by
  induction n with
  | zero => rfl
  | succ n ih => simpa [List.replicate, wfNodeOptList] using ih

theorem promoteLoop_length (cs : List (Node K V)) :
    ∀ (remaining j bitmap : Nat) (slots : List (Option (Node K V))),
      (promoteLoop (σ := σ) cs remaining j bitmap slots).length = slots.length := by
  intro remaining
  induction remaining with
  | zero => intro j bitmap slots; rfl
  | succ r ih =>
    intro j bitmap slots
    simp only [promoteLoop]
    by_cases hb : bitmap &&& 1 ≠ 0
    · rw [if_pos hb, ih]
      exact List.length_set slots _ _
    · rw [if_neg hb]
      exact ih j (bitmap >>> 1) slots

theorem promoteLoop_wf (cs : List (Node K V)) (hcs : wfNodeList cs = true) :
    ∀ (remaining j bitmap : Nat) (slots : List (Option (Node K V))),
      wfNodeOptList slots = true →
      wfNodeOptList (promoteLoop (σ := σ) cs remaining j bitmap slots) = true := by
  intro remaining
  induction remaining with
  | zero => intro j bitmap slots h; exact h
  | succ r ih =>
    intro j bitmap slots h
    simp only [promoteLoop]
    by_cases hb : bitmap &&& 1 ≠ 0
    · rw [if_pos hb]
      refine ih (j + 1) (bitmap >>> 1) _ ?_
      refine wfNodeOptList_set slots _ _ h ?_
      intro c hc
      have hmem : c ∈ cs := by
        cases hj : cs[j]? with
        | none => rw [hj] at hc; exact Option.noConfusion hc
        | some d =>
          rw [hj] at hc
          injection hc with hdc
          exact hdc ▸ List.getElem?_mem hj
      exact wfNodeList_elem hcs hmem
    · rw [if_neg hb]
      exact ih j (bitmap >>> 1) slots h


theorem mergeLeavesLoop_wf :
    ∀ (fuel shift hA : Nat) (a : Node K V) (hB : Nat) (b : Node K V),
      wfNode a = true → isEmptyNode a = false → wfNode b = true → isEmptyNode b = false →
      ∀ r, mergeLeavesLoop fuel shift hA a hB b = some r →
        wfNode r = true ∧ isEmptyNode r = false := by
  intro fuel
  induction fuel with
  | zero => intro _ _ _ _ _ _ _ _ _ r h; exact Option.noConfusion h
  | succ fuel ih =>
    intro shift hA a hB b hwa hea hwb heb r h
    simp only [mergeLeavesLoop] at h
    have hfa : hashFragment shift hA < 32 := hashFragment_lt shift hA
    have hfb : hashFragment shift hB < 32 := hashFragment_lt shift hB
    by_cases heq : hashFragment shift hA = hashFragment shift hB
    · rw [if_pos heq] at h
      obtain ⟨c, hc, hcr⟩ := Option.map_eq_some'.1 h
      obtain ⟨hwc, hec⟩ := ih (shift + FRAGMENT_SIZE) hA a hB b hwa hea hwb heb c hc
      subst hcr
      refine ⟨?_, rfl⟩
      have hbm : toMask (hashFragment shift hA) ||| toMask (hashFragment shift hB) =
          2 ^ hashFragment shift hA := by
        rw [← heq, Nat.or_self, toMask_eq_two_pow hfa]
      rw [hbm]
      simp only [wfNode, wfNodeList, Bool.and_eq_true, decide_eq_true_eq]
      refine ⟨⟨⟨two_pow_lt_two_pow_32 hfa, ?_⟩, ?_⟩, ⟨⟨by simp [hec], hwc⟩, trivial⟩⟩
      · positivity
      · simpa using popCount_two_pow hfa
    · rw [if_neg heq] at h
      have hbm : toMask (hashFragment shift hA) ||| toMask (hashFragment shift hB) =
          2 ^ hashFragment shift hA ||| 2 ^ hashFragment shift hB := by
        rw [toMask_eq_two_pow hfa, toMask_eq_two_pow hfb]
      have hne0 : (2 ^ hashFragment shift hA ||| 2 ^ hashFragment shift hB : Nat) ≠ 0 := by
        intro h0
        have ht : (2 ^ hashFragment shift hA ||| 2 ^ hashFragment shift hB : Nat).testBit
            (hashFragment shift hA) = true := by
          rw [Nat.testBit_or, Nat.testBit_two_pow_self]
          simp
        rw [h0, Nat.zero_testBit] at ht
        exact Bool.noConfusion ht
      have hlt32 : (2 ^ hashFragment shift hA ||| 2 ^ hashFragment shift hB : Nat) < 2 ^ 32 :=
        Nat.or_lt_two_pow (two_pow_lt_two_pow_32 hfa) (two_pow_lt_two_pow_32 hfb)
      have hpc : popCount (2 ^ hashFragment shift hA ||| 2 ^ hashFragment shift hB) = 2 :=
        popCount_two_pow_or hfa hfb heq
      by_cases hlt : hashFragment shift hA < hashFragment shift hB
      · rw [if_pos hlt] at h
        injection h with hr
        subst hr
        refine ⟨?_, rfl⟩
        rw [show Node.packed (toMask (hashFragment shift hA) ||| toMask (hashFragment shift hB))
          [a, b] = Node.packed (2 ^ hashFragment shift hA ||| 2 ^ hashFragment shift hB)
          [a, b] by rw [hbm]]
        simp only [wfNode, wfNodeList, Bool.and_eq_true, decide_eq_true_eq]
        exact ⟨⟨⟨hlt32, hne0⟩, by simpa using hpc⟩,
          ⟨⟨by simp [hea], hwa⟩, ⟨⟨by simp [heb], hwb⟩, trivial⟩⟩⟩
      · rw [if_neg hlt] at h
        injection h with hr
        subst hr
        refine ⟨?_, rfl⟩
        rw [show Node.packed (toMask (hashFragment shift hA) ||| toMask (hashFragment shift hB))
          [b, a] = Node.packed (2 ^ hashFragment shift hA ||| 2 ^ hashFragment shift hB)
          [b, a] by rw [hbm]]
        simp only [wfNode, wfNodeList, Bool.and_eq_true, decide_eq_true_eq]
        exact ⟨⟨⟨hlt32, hne0⟩, by simpa using hpc⟩,
          ⟨⟨by simp [heb], hwb⟩, ⟨⟨by simp [hea], hwa⟩, trivial⟩⟩⟩

theorem mergeLeaves_wf (shift hA hB : Nat) (a : Node K V) (k : K) (v : V)
    (hwa : wfNode a = true)
    (hshape : (∃ h0 k0 v0, a = Node.leaf h0 k0 v0) ∨ ∃ h0 ps, a = Node.collision h0 ps) :
    wfNode (mergeLeaves shift hA a hB (.leaf hB k v)) = true := by
  unfold mergeLeaves
  by_cases hh : hA = hB
  · rw [if_pos hh]
    rcases hshape with ⟨h0, k0, v0, rfl⟩ | ⟨h0, ps, rfl⟩
    · simp [wfNode]
    · simp only [wfNode, decide_eq_true_eq] at hwa
      simp only [wfNode, decide_eq_true_eq, List.length_append, List.length_cons,
        List.length_nil]
      omega
  · rw [if_neg hh]
    cases hml : mergeLeavesLoop 32 shift hA a hB (.leaf hB k v) with
    | none => rfl
    | some r =>
      have hb : isEmptyNode a = false := by
        rcases hshape with ⟨h0, k0, v0, rfl⟩ | ⟨h0, ps, rfl⟩ <;> rfl
      exact ((mergeLeavesLoop_wf 32 shift hA a hB (.leaf hB k v) hwa hb rfl rfl r hml).1)


theorem alter_wf (key : K) (keyHash : Nat) (f : Option V → σ → Option V × σ) :
    ∀ (node : Node K V), wfNode node = true → ∀ (shift : Nat) (s : σ) (r : Node K V) (s2 : σ),
      alter shift node key keyHash f s = .ok (r, s2) → wfNode r = true := by
  refine node_ind (fun node => wfNode node = true → ∀ (shift : Nat) (s : σ) (r : Node K V)
    (s2 : σ), alter shift node key keyHash f s = .ok (r, s2) → wfNode r = true)
    ?_ ?_ ?_ ?_ ?_
  · intro _ shift s r s2 h
    simp only [alter] at h
    injection h with h1
    injection h1 with h2 h3
    subst h2
    cases (f none s).1 <;> rfl
  · intro hh k v _ shift s r s2 h
    simp only [alter] at h
    by_cases hk : key = k
    · rw [if_pos hk] at h
      injection h with h1
      injection h1 with h2 h3
      subst h2
      cases (f (some v) s).1 <;> rfl
    · rw [if_neg hk] at h
      injection h with h1
      injection h1 with h2 h3
      subst h2
      cases hv : (f none s).1 with
      | none => rfl
      | some w =>
        show wfNode (mergeLeaves shift hh (.leaf hh k v) keyHash (.leaf keyHash key w)) = true
        exact mergeLeaves_wf shift hh keyHash (.leaf hh k v) key w rfl (Or.inl ⟨hh, k, v, rfl⟩)
  · intro hh ps hwf shift s r s2 h
    simp only [alter] at h
    by_cases hne : keyHash ≠ hh
    · rw [if_pos hne] at h
      injection h with h1
      injection h1 with h2 h3
      subst h2
      cases hv : (f none s).1 with
      | none => exact hwf
      | some w =>
        show wfNode (mergeLeaves shift hh (.collision hh ps) keyHash (.leaf keyHash key w)) = true
        exact mergeLeaves_wf shift hh keyHash (.collision hh ps) key w hwf (Or.inr ⟨hh, ps, rfl⟩)
    · rw [if_neg hne] at h
      cases ps with
      | nil =>
        simp only [wfNode, decide_eq_true_eq, List.length_nil] at hwf
        omega
      | cons p ps2 => exact absurd h (by simp)
  · intro bitmap cs IH hwf shift s r s2 h
    have hwf2 := hwf
    simp only [wfNode, Bool.and_eq_true, decide_eq_true_eq] at hwf2
    obtain ⟨⟨⟨hbm32, hbm0⟩, hpc⟩, hwl⟩ := hwf2
    simp only [alter] at h
    have hf32 : hashFragment shift keyHash < 32 := hashFragment_lt shift keyHash
    have hmask : toMask (hashFragment shift keyHash) = 2 ^ hashFragment shift keyHash :=
      toMask_eq_two_pow hf32
    by_cases hbit : bitmap &&& toMask (hashFragment shift keyHash) ≠ 0
    · rw [if_pos hbit] at h
      have htb : bitmap.testBit (hashFragment shift keyHash) = true := by
        rw [hmask] at hbit
        exact and_two_pow_ne_iff.1 hbit
      cases halterL : alterListNth cs
          (popCount (bitmap &&& (toMask (hashFragment shift keyHash) - 1)))
          (shift + FRAGMENT_SIZE) key keyHash f s with
      | error e => rw [halterL] at h; exact Except.noConfusion h
      | ok p =>
        rw [halterL] at h
        dsimp only at h
        obtain ⟨newChild, s3⟩ := p
        rw [alterListNth_eq] at halterL
        cases hc : cs[popCount (bitmap &&& (toMask (hashFragment shift keyHash) - 1))]? with
        | none => rw [hc] at halterL; exact Except.noConfusion halterL
        | some c =>
          rw [hc] at halterL
          dsimp only at halterL
          have hcmem := List.getElem?_mem hc
          have hcwf := wfNodeList_elem hwl hcmem
          have hwnew : wfNode newChild = true :=
            IH c hcmem hcwf.1 (shift + FRAGMENT_SIZE) s newChild s3 halterL
          injection h with h1
          injection h1 with h2 h3
          subst h2
          by_cases hemp : isEmptyNode newChild = true
          · rw [if_pos hemp]
            by_cases hbmm : bitmap = toMask (hashFragment shift keyHash)
            · rw [if_pos hbmm]; rfl
            · rw [if_neg hbmm]
              simp only [wfNode, Bool.and_eq_true, decide_eq_true_eq]
              refine ⟨⟨⟨?_, ?_⟩, ?_⟩, wfNodeList_eraseIdx cs _ hwl⟩
              · rw [hmask]
                exact Nat.xor_lt_two_pow hbm32 (two_pow_lt_two_pow_32 hf32)
              · rw [hmask]
                intro h0
                rw [hmask] at hbmm
                exact hbmm (Nat.xor_eq_zero.1 h0)
              · rw [hmask]
                have hcilt : popCount (bitmap &&&
                    (2 ^ hashFragment shift keyHash - 1)) < cs.length := by
                  rw [← hpc]
                  exact popCount_and_mask_lt hbm32 hf32 htb
                have hlen := List.length_eraseIdx_add_one hcilt
                have hx := popCount_xor_two_pow hbm32 hf32 htb
                omega
          · rw [if_neg hemp]
            by_cases heqc : nodeEq newChild (cs.getD (popCount (bitmap &&&
                (toMask (hashFragment shift keyHash) - 1))) .empty) = true
            · rw [if_pos heqc]; exact hwf
            · rw [if_neg heqc]
              have hetb : isEmptyNode newChild = false := by simpa using hemp
              simp only [wfNode, Bool.and_eq_true, decide_eq_true_eq]
              refine ⟨⟨⟨hbm32, hbm0⟩, ?_⟩, wfNodeList_set cs _ _ hwl hwnew hetb⟩
              rw [List.length_set]
              exact hpc
    · rw [if_neg hbit] at h
      have h0 : bitmap &&& toMask (hashFragment shift keyHash) = 0 := of_not_not hbit
      have htb : bitmap.testBit (hashFragment shift keyHash) = false := by
        by_contra hx
        rw [Bool.not_eq_false] at hx
        rw [hmask] at h0
        exact and_two_pow_ne_iff.2 hx h0
      cases hv : (f none s).1 with
      | none =>
        rw [hv] at h
        dsimp only at h
        injection h with h1
        injection h1 with h2 h3
        subst h2
        exact hwf
      | some w =>
        rw [hv] at h
        dsimp only at h
        by_cases hmax : MAX_CHILDREN_IN_PACKED_NODE ≤ cs.length
        · rw [if_pos hmax] at h
          injection h with h1
          injection h1 with h2 h3
          subst h2
          simp only [wfNode, Bool.and_eq_true, decide_eq_true_eq]
          constructor
          · rw [promoteLoop_length, List.length_set, List.length_replicate]
          · refine promoteLoop_wf cs hwl 32 0 bitmap _ ?_
            refine wfNodeOptList_set _ _ _ (wfNodeOptList_replicate 32) ?_
            intro c hc
            injection hc with hc2
            subst hc2
            exact ⟨rfl, rfl⟩
        · rw [if_neg hmax] at h
          injection h with h1
          injection h1 with h2 h3
          subst h2
          have hle : popCount (bitmap &&& (toMask (hashFragment shift keyHash) - 1)) ≤
              cs.length := by
            rw [hmask, ← hpc]
            exact popCount_and_mask_le hbm32
          simp only [wfNode, Bool.and_eq_true, decide_eq_true_eq]
          refine ⟨⟨⟨?_, ?_⟩, ?_⟩, wfNodeList_insertIdx cs _ _ hwl rfl rfl⟩
          · rw [hmask]
            exact Nat.or_lt_two_pow hbm32 (two_pow_lt_two_pow_32 hf32)
          · rw [hmask]
            intro hz
            have ht : (bitmap ||| 2 ^ hashFragment shift keyHash).testBit
                (hashFragment shift keyHash) = true := by
              rw [Nat.testBit_or, Nat.testBit_two_pow_self]
              simp
            rw [hz, Nat.zero_testBit] at ht
            exact Bool.noConfusion ht
          · rw [hmask] at hle ⊢
            rw [List.length_insertIdx _ _ hle]
            have hx := popCount_or_two_pow hbm32 hf32 htb
            omega
  · intro n cs IH hwf shift s r s2 h
    have hwf2 := hwf
    simp only [wfNode, Bool.and_eq_true, decide_eq_true_eq] at hwf2
    obtain ⟨hlen, hwl⟩ := hwf2
    simp only [alter] at h
    cases hgd : cs.getD (hashFragment shift keyHash) none with
    | none =>
      rw [hgd] at h
      dsimp only at h
      cases hv : (f none s).1 with
      | none =>
        rw [hv] at h
        dsimp only at h
        injection h with h1
        injection h1 with h2 h3
        subst h2
        exact hwf
      | some w =>
        rw [hv] at h
        dsimp only at h
        injection h with h1
        injection h1 with h2 h3
        subst h2
        simp only [wfNode, Bool.and_eq_true, decide_eq_true_eq]
        refine ⟨by rw [List.length_set]; exact hlen, wfNodeOptList_set _ _ _ hwl ?_⟩
        intro c hc
        injection hc with hc2
        subst hc2
        exact ⟨rfl, rfl⟩
    | some child =>
      rw [hgd] at h
      dsimp only at h
      cases halterL : alterOptListNth cs (hashFragment shift keyHash)
          (shift + FRAGMENT_SIZE) key keyHash f s with
      | error e => rw [halterL] at h; exact Except.noConfusion h
      | ok p =>
        rw [halterL] at h
        dsimp only at h
        obtain ⟨newChild, s3⟩ := p
        rw [alterOptListNth_eq] at halterL
        cases hc : cs[hashFragment shift keyHash]? with
        | none => rw [hc] at halterL; exact Except.noConfusion halterL
        | some o =>
          rw [hc] at halterL
          cases o with
          | none => exact Except.noConfusion halterL
          | some c =>
            dsimp only at halterL
            have hcmem : some c ∈ cs := List.getElem?_mem hc
            have hcwf := wfNodeOptList_elem hwl hcmem
            have hwnew : wfNode newChild = true :=
              IH c hcmem hcwf.1 (shift + FRAGMENT_SIZE) s newChild s3 halterL
            injection h with h1
            injection h1 with h2 h3
            subst h2
            by_cases heqc : nodeEq newChild child = true
            · rw [if_pos heqc]; exact hwf
            · rw [if_neg heqc]
              by_cases hemp : isEmptyNode newChild = true
              · rw [if_pos hemp]
                by_cases hn1 : n = 1
                · rw [if_pos hn1]; rfl
                · rw [if_neg hn1]
                  simp only [wfNode, Bool.and_eq_true, decide_eq_true_eq]
                  refine ⟨by rw [List.length_set]; exact hlen,
                    wfNodeOptList_set _ _ _ hwl ?_⟩
                  intro c2 hc2
                  exact Option.noConfusion hc2
              · rw [if_neg hemp]
                simp only [wfNode, Bool.and_eq_true, decide_eq_true_eq]
                refine ⟨by rw [List.length_set]; exact hlen,
                  wfNodeOptList_set _ _ _ hwl ?_⟩
                intro c2 hc2
                injection hc2 with hc3
                subst hc3
                exact ⟨hwnew, by simpa using hemp⟩


theorem packedNonemptyList_of (cs : List (Node K V)) :
    (∀ c ∈ cs, packedNonempty c = true) → packedNonemptyList cs = true := by
  induction cs with
  | nil => intro _; rfl
  | cons c cs ih =>
    intro h
    simp only [packedNonemptyList, Bool.and_eq_true]
    exact ⟨h c (by simp), ih (fun c2 hc2 => h c2 (by simp [hc2]))⟩

theorem packedNonemptyOptList_of (cs : List (Option (Node K V))) :
    (∀ c, some c ∈ cs → packedNonempty c = true) → packedNonemptyOptList cs = true := by
  induction cs with
  | nil => intro _; rfl
  | cons o cs ih =>
    intro h
    cases o with
    | none =>
      simp only [packedNonemptyOptList]
      exact ih (fun c2 hc2 => h c2 (by simp [hc2]))
    | some c =>
      simp only [packedNonemptyOptList, Bool.and_eq_true]
      exact ⟨h c (by simp), ih (fun c2 hc2 => h c2 (by simp [hc2]))⟩

theorem packedNonempty_of_wf : ∀ (n : Node K V), wfNode n = true → packedNonempty n = true := by
  refine node_ind (fun n => wfNode n = true → packedNonempty n = true) ?_ ?_ ?_ ?_ ?_
  · intro _; rfl
  · intro _ _ _ _; rfl
  · intro _ _ _; rfl
  · intro bm cs IH hwf
    simp only [wfNode, Bool.and_eq_true, decide_eq_true_eq] at hwf
    obtain ⟨⟨⟨hbm32, hbm0⟩, hpc⟩, hwl⟩ := hwf
    simp only [packedNonempty, Bool.and_eq_true, decide_eq_true_eq]
    constructor
    · rw [← hpc]
      exact popCount_pos hbm32 hbm0
    · exact packedNonemptyList_of cs (fun c hc => IH c hc (wfNodeList_elem hwl hc).1)
  · intro n cs IH hwf
    simp only [wfNode, Bool.and_eq_true, decide_eq_true_eq] at hwf
    simp only [packedNonempty]
    exact packedNonemptyOptList_of cs
      (fun c hc => IH c hc (wfNodeOptList_elem hwf.2 hc).1)

theorem set_wf (d : Dict K V) (k : K) (v : V) (d2 : Dict K V)
    (hwf : wfNode d.root = true) (h : set hashK d k v = .ok d2) :
    wfNode d2.root = true := by
  unfold set at h
  cases halter : alter 0 d.root k (hashK k)
      (fun arg s => (some v, if arg = none then s + 1 else s)) d.size with
  | error e => rw [halter] at h; exact Except.noConfusion h
  | ok p =>
    obtain ⟨r0, s0⟩ := p
    rw [halter] at h
    dsimp only [Except.map] at h
    injection h with h1
    subst h1
    exact alter_wf k (hashK k) _ d.root hwf 0 d.size r0 s0 halter

theorem remove_wf (d : Dict K V) (k : K) (d2 : Dict K V)
    (hwf : wfNode d.root = true) (h : remove hashK d k = .ok d2) :
    wfNode d2.root = true := by
  unfold remove at h
  cases halter : alter 0 d.root k (hashK k)
      (fun arg s => (none, if arg ≠ none then s - 1 else s)) d.size with
  | error e => rw [halter] at h; exact Except.noConfusion h
  | ok p =>
    obtain ⟨r0, s0⟩ := p
    rw [halter] at h
    dsimp only [Except.map] at h
    injection h with h1
    subst h1
    exact alter_wf k (hashK k) _ d.root hwf 0 d.size r0 s0 halter

theorem applyOps_fold_wf (ops : List (Op K V)) :
    ∀ (d0 : Dict K V), wfNode d0.root = true →
      ∀ d, (ops.foldlM
        (fun d op =>
          match op with
          | .ins k v => set hashK d k v
          | .del k => remove hashK d k) d0) = .ok d → wfNode d.root = true := by
  induction ops with
  | nil =>
    intro d0 hwf d h
    simp only [List.foldlM] at h
    injection h with h1
    subst h1
    exact hwf
  | cons op ops ih =>
    intro d0 hwf d h
    simp only [List.foldlM] at h
    cases hstep : (match op with
        | Op.ins k v => set hashK d0 k v
        | Op.del k => remove hashK d0 k) with
    | error e =>
      rw [hstep] at h
      exact Except.noConfusion h
    | ok d1 =>
      rw [hstep] at h
      have hwf1 : wfNode d1.root = true := by
        cases op with
        | ins k v => exact set_wf hashK d0 k v d1 hwf hstep
        | del k => exact remove_wf hashK d0 k d1 hwf hstep
      exact ih d1 hwf1 d h

theorem applyOps_wf (ops : List (Op K V)) (d : Dict K V)
    (h : applyOps hashK ops = .ok d) : wfNode d.root = true :=
  applyOps_fold_wf hashK ops emptyDict rfl d h

/-- C4 (amended): after every completed sequence of `insert` and `remove`
operations starting from the empty map, every reachable tree is
well-formed, and in particular every Packed node reachable from the
resulting root has at least 1 child.  (The spec's stronger bound of 2
children fails: see the counterexample theorem, where a removal leaves a
persistent single-child Packed node.) -/
theorem packed_children_nonempty_of_applyOps (ops : List (Op K V)) (d : Dict K V)
    (h : applyOps hashK ops = .ok d) : packedNonempty d.root = true :=
  packedNonempty_of_wf d.root (applyOps_wf hashK ops d h)

/-- The C4 guarantee evaluated on the concrete operation sequence of the
counterexample: the surviving single-child Packed node still has its one
child. -/
theorem packed_children_nonempty_of_applyOps_witness :
    packedNonempty (Dict.root ⟨.packed 6 [.packed 16 [.leaf 129 ([129] : List Nat) (0 : Nat)],
      .leaf 98 [98] 0], 2⟩) = true :=
  packed_children_nonempty_of_applyOps hashKU
    [Op.ins [97] (0 : Nat), Op.ins [129] 0, Op.ins [98] 0, Op.del [97]] _ rfl


end Hamt
